import Mathlib

/-!
# Verification of the event-ordering engine of `events_queue.js`

Shallow embedding of `src/dist/handlers/events_queue.js` (classes
`EventsQueue` and `ConversationEventsProcessor`).

Modelling choices:
* JavaScript numbers obtained from `Number(event.id)` are modelled as
  `Option ℚ`, with `none` playing the role of `NaN`.  All comparisons in the
  source (`>`/`<` on possibly-NaN numbers) are modelled by boolean comparisons
  that are `false` whenever either side is `NaN`, exactly as in JS.
* The JS `Map` used for `eventsMap` / `cidMap` is modelled as an association
  list with `SameValueZero`-style key equality (plain decidable equality; note
  that for `Option ℚ` keys this matches JS `Map`, where `NaN` is equal to
  itself as a key).
* The two external collaborators are oracles in an environment `Env`:
  `fetchResult start_id end_id` is the outcome of the HTTP pagination request
  (`none` = the request rejected, i.e. `fetchConversationEvents` throws a
  `NexmoApiError`; `some l` = the returned `items`), and `dispatchOk e`
  says whether the Dispatcher callback (`application._handleEvent`) resolves
  (`true`) or rejects (`false`) on event `e`.
* The recursive async drain (`processEvents` / `processNextEvent`) is modelled
  with explicit fuel; a `Bool` in the result records whether the run completed
  (`true`) or ran out of fuel (`false`).  The single-threaded cooperative
  scheduling of §5 of the spec is modelled by treating each `enqueue` call
  (including the drain pass it triggers) as one atomic step.
* Every externally observable action is recorded in a trace: dispatcher
  invocations (with success flag) and history-fetch requests.
-/

set_option allowUnsafeReducibility true
attribute [local semireducible] Rat.add Rat.sub Rat.mul Rat.div Rat.inv

/-- A JavaScript number as produced by `Number(x)`: `none` is `NaN`. -/
abbrev JsNum := Option ℚ

/-- JS `a > b`: `false` whenever either side is `NaN`. -/
def jgtb : JsNum → JsNum → Bool
  | some a, some b => decide (b < a)
  | _, _ => false

/-- JS `a < b`: `false` whenever either side is `NaN`. -/
def jltb : JsNum → JsNum → Bool
  | some a, some b => decide (a < b)
  | _, _ => false

/-- JS `x + 1` (`NaN + 1 = NaN`). -/
def jadd1 (x : JsNum) : JsNum := x.map (· + 1)

/-- JS `x - 1` (`NaN - 1 = NaN`). -/
def jsub1 (x : JsNum) : JsNum := x.map (· - 1)

/-- JS `x + c` for a numeric literal `c`. -/
def jaddC (x : JsNum) (c : ℚ) : JsNum := x.map (· + c)

/-- The wire shape of a raw event, restricted to the fields the engine reads.
`id` is `Number(event.id)` (`none` = `NaN`, `some q` = the numeric value,
which need not be an integer); `cid` is `none` when the field is absent or
falsy.  `hasMediaAudio` models truthiness of `event.body?.media?.audio` and
`hasChannelId` of `event.body?.channel?.id`.  `payload` is an abstract stand-in
for the rest of the event body, so that two events with the same id can be
distinguished. -/
structure RawEvent where
  id : JsNum
  cid : Option String
  type : String
  from_ : String
  hasMediaAudio : Bool
  hasChannelId : Bool
  payload : Nat
deriving DecidableEq, Repr

/-- Association-list model of a JS `Map` (`SameValueZero` key equality is
plain decidable equality here).  `mapSet` is `Map.prototype.set`: replace in
place if the key exists, append otherwise. -/
def mapSet {κ ν : Type} [DecidableEq κ] (m : List (κ × ν)) (k : κ) (v : ν) :
    List (κ × ν) :=
  if m.any (fun kv => kv.1 = k) then
    m.map (fun kv => if kv.1 = k then (k, v) else kv)
  else m ++ [(k, v)]

/-- `Map.prototype.get`. -/
def mapGet {κ ν : Type} [DecidableEq κ] (m : List (κ × ν)) (k : κ) :
    Option ν :=
  (m.find? (fun kv => kv.1 = k)).map (·.2)

/-- `Map.prototype.delete`. -/
def mapDelete {κ ν : Type} [DecidableEq κ] (m : List (κ × ν)) (k : κ) :
    List (κ × ν) :=
  m.filter (fun kv => ¬ kv.1 = k)

/-- The external collaborators: the history fetcher (pagination request) and
the dispatcher callback. `fetchResult start_id end_id = none` models the
request rejecting; `dispatchOk e = false` models `application._handleEvent e`
rejecting. -/
structure Env where
  fetchResult : JsNum → JsNum → Option (List RawEvent)
  dispatchOk : RawEvent → Bool

/-- Per-conversation processor state: the fields of class
`ConversationEventsProcessor`. -/
structure ConversationEventsProcessor where
  cid : String
  eventsMap : List (JsNum × RawEvent)
  lastEventIdProcessed : JsNum
  largestEventIdInQueue : JsNum
  processing : Bool
  eventsFetchRange : ℚ
deriving DecidableEq, Repr

/-- One externally observable action of a processor: a dispatcher invocation
(`disp e ok`, `ok` = the callback resolved) or a history-fetch request
(`fetch start_id end_id`). -/
inductive PEntry where
  | disp (e : RawEvent) (ok : Bool)
  | fetch (start_id end_id : JsNum)
deriving DecidableEq, Repr

/-- One externally observable action of the queue: a direct (bypass) callback
invocation, or an action of the processor for conversation `cid`. -/
inductive QEntry where
  | bypass (e : RawEvent) (ok : Bool)
  | conv (cid : String) (pe : PEntry)
deriving DecidableEq, Repr

/-- The `ConversationEventsProcessor` constructor. -/
def mkProcessor (cid : String) (lastEventIdProcessed : JsNum) :
    ConversationEventsProcessor :=
  { cid := cid
    eventsMap := []
    lastEventIdProcessed := lastEventIdProcessed
    largestEventIdInQueue := lastEventIdProcessed
    processing := false
    eventsFetchRange := 9 }

namespace ConversationEventsProcessor

/-- `enqueue(eventId, event)` of the source: raise the high-water mark if
`eventId` exceeds it, and store the event iff `eventId > lastEventIdProcessed`
(overwriting any previous entry for the same id). -/
def enqueue (s : ConversationEventsProcessor) (eventId : JsNum)
    (event : RawEvent) : ConversationEventsProcessor :=
  let s1 := if jgtb eventId s.largestEventIdInQueue then
    { s with largestEventIdInQueue := eventId } else s
  if jgtb eventId s1.lastEventIdProcessed then
    { s1 with eventsMap := mapSet s1.eventsMap eventId event } else s1

/-- `dequeue(eventId)` of the source: look up and delete. -/
def dequeue (s : ConversationEventsProcessor) (eventId : JsNum) :
    Option RawEvent × ConversationEventsProcessor :=
  (mapGet s.eventsMap eventId,
   { s with eventsMap := mapDelete s.eventsMap eventId })

/-- `fetchConversationEvents(start_id, range)`: compute the requested
`end_id` exactly as the source does and consult the pagination oracle,
recording the request in the trace.  `none` as first component models the
`NexmoApiError` being thrown. -/
def fetchConversationEvents (env : Env) (s : ConversationEventsProcessor)
    (start_id : JsNum) (range : ℚ) : Option (List RawEvent) × PEntry :=
  let end_id := if jgtb s.largestEventIdInQueue start_id then
    jaddC s.largestEventIdInQueue range else jaddC start_id range
  (env.fetchResult start_id end_id, PEntry.fetch start_id end_id)

/-- The body of the `forEach` in `fetchEventsAndProcess`: restore `cid`,
discard stale or NaN ids, merge larger ids into the pending map, remember the
exactly-matching id as `foundEvent`. -/
def mergeStep (cid : String) (missingEvent : JsNum)
    (acc : ConversationEventsProcessor × Option RawEvent) (event : RawEvent) :
    ConversationEventsProcessor × Option RawEvent :=
  let event := { event with cid := some cid }
  let eventId := event.id
  if eventId = none ∨ jltb eventId missingEvent then acc
  else if jgtb eventId missingEvent then (acc.1.enqueue eventId event, acc.2)
  else (acc.1, some event)

/-- `fetchEventsAndProcess(missingEvent)`: fetch a window starting at the
missing id; on failure behave as if nothing was found (the `catch` branch);
otherwise merge the results and return the event matching `missingEvent`,
if any. -/
def fetchEventsAndProcess (env : Env) (s : ConversationEventsProcessor)
    (missingEvent : JsNum) :
    ConversationEventsProcessor × List PEntry × Option RawEvent :=
  match fetchConversationEvents env s missingEvent s.eventsFetchRange with
  | (none, log) => (s, [log], none)
  | (some eventsList, log) =>
    let r := eventsList.foldl (mergeStep s.cid missingEvent) (s, none)
    (r.1, [log], r.2)

/-- `processNextEvent(eventId)` with explicit fuel.  Returns the new state,
the trace of observable actions, the `processedEvent` result (`none` models
the source returning `undefined`, which includes the `catch` branch taken when
the dispatcher callback rejects), and whether fuel sufficed. -/
def processNextEvent (env : Env) :
    Nat → ConversationEventsProcessor → JsNum →
    ConversationEventsProcessor × List PEntry × Option RawEvent × Bool
  | 0, s, _ => (s, [], none, false)
  | Nat.succ fuel, s, eventId =>
    let d := s.dequeue eventId
    match d.1 with
    | some event =>
      if env.dispatchOk event then (d.2, [PEntry.disp event true], some event, true)
      else (d.2, [PEntry.disp event false], none, true)
    | none =>
      if jgtb d.2.largestEventIdInQueue eventId then
        let f := fetchEventsAndProcess env d.2 eventId
        match f.2.2 with
        | some foundEvent =>
          if env.dispatchOk foundEvent then
            (f.1, f.2.1 ++ [PEntry.disp foundEvent true], some foundEvent, true)
          else
            (f.1, f.2.1 ++ [PEntry.disp foundEvent false], none, true)
        | none =>
          let r := processNextEvent env fuel f.1 (jadd1 eventId)
          (r.1, f.2.1 ++ r.2.1, r.2.2)
      else (d.2, [], none, true)

/-- `processEvents()` with explicit fuel: the drain loop.  `doneProcessing`
clears the whole pending map and resets `processing`.  The returned `Bool` is
`true` iff the loop reached `doneProcessing` before running out of fuel. -/
def processEvents (env : Env) :
    Nat → ConversationEventsProcessor →
    ConversationEventsProcessor × List PEntry × Bool
  | 0, s => (s, [], false)
  | Nat.succ fuel, s =>
    if s.eventsMap.length < 1 then
      ({ s with eventsMap := [], processing := false }, [], true)
    else
      let nextEventToProcess := jadd1 s.lastEventIdProcessed
      let r := processNextEvent env (Nat.succ fuel) s nextEventToProcess
      match r.2.2.1 with
      | some processedEvent =>
        let s2 := { r.1 with lastEventIdProcessed := processedEvent.id }
        let r2 := processEvents env fuel s2
        (r2.1, r.2.1 ++ r2.2.1, r.2.2.2 && r2.2.2)
      | none =>
        ({ r.1 with eventsMap := [], processing := false }, r.2.1, r.2.2.2)

end ConversationEventsProcessor

/-- The body of the bootstrap `forEach` in `EventsQueue.enqueue`: on a
`rtc:transfer` event from the triggering event's originator, rewind
`lastEventIdProcessed` to the transfer's id minus one; from the first such
event onward, enqueue every fetched event. -/
def bootstrapStep (trigger : RawEvent)
    (acc : ConversationEventsProcessor × Bool) (fetchedEvent : RawEvent) :
    ConversationEventsProcessor × Bool :=
  let isTransfer := fetchedEvent.type = "rtc:transfer" ∧
    fetchedEvent.from_ = trigger.from_
  let found := acc.2 || decide isTransfer
  let s := if isTransfer then
    { acc.1 with lastEventIdProcessed := jsub1 fetchedEvent.id } else acc.1
  if found then (s.enqueue fetchedEvent.id fetchedEvent, found) else (s, found)

/-- The clamped lower bound of the bootstrap lookback window:
`eventId - 20 < 1 ? 1 : eventId - 20`. -/
def bootstrapFetchStart (eventId : ℚ) : ℚ :=
  if eventId - 20 < 1 then 1 else eventId - 20

/-- Creation of a new `ConversationEventsProcessor` inside
`EventsQueue.enqueue`, including the bootstrap transfer detection.  The first
component is `none` when the lookback fetch rejects: the source has no
`try`/`catch` here, so the `NexmoApiError` escapes and `enqueue` rejects. -/
def createProcessor (env : Env) (cid : String) (eventId : ℚ)
    (event : RawEvent) : Option ConversationEventsProcessor × List PEntry :=
  let p := mkProcessor cid (some (eventId - 1))
  if (event.type = "member:media" ∧ event.hasMediaAudio) ∨
     (event.type = "member:joined" ∧ event.hasChannelId) then
    match p.fetchConversationEvents env (some (bootstrapFetchStart eventId)) 20 with
    | (none, log) => (none, [log])
    | (some events, log) =>
      (some (events.foldl (bootstrapStep event) (p, false)).1, [log])
  else (some p, [])

/-- The `EventsQueue` state: the `cidMap` from conversation id to processor. -/
structure EventsQueue where
  cidMap : List (String × ConversationEventsProcessor)
deriving DecidableEq, Repr

/-- The tail of `EventsQueue.enqueue` shared by the new- and existing-cid
paths: enqueue the triggering event into the processor and, if it is not
already processing, run a drain pass. -/
def enqueueInto (env : Env) (fuel : Nat) (q : EventsQueue) (c : String)
    (eventId : ℚ) (event : RawEvent) (p : ConversationEventsProcessor) :
    EventsQueue × List QEntry × Bool :=
  let p := p.enqueue (some eventId) event
  if p.processing then ({ cidMap := mapSet q.cidMap c p }, [], false)
  else
    let r := ConversationEventsProcessor.processEvents env fuel
      { p with processing := true }
    ({ cidMap := mapSet q.cidMap c r.1 }, r.2.1.map (QEntry.conv c), false)

/-- `EventsQueue.enqueue(event, application)`.  The final `Bool` is `true`
iff the returned promise rejects (an error propagated to the caller). -/
def EventsQueue.enqueue (env : Env) (fuel : Nat) (q : EventsQueue)
    (event : RawEvent) : EventsQueue × List QEntry × Bool :=
  match event.cid, event.id with
  | some c, some eventId =>
    match mapGet q.cidMap c with
    | some p => enqueueInto env fuel q c eventId event p
    | none =>
      match createProcessor env c eventId event with
      | (none, log) => (q, log.map (QEntry.conv c), true)
      | (some p, log) =>
        let q := EventsQueue.mk (mapSet q.cidMap c p)
        let r := enqueueInto env fuel q c eventId event p
        (r.1, log.map (QEntry.conv c) ++ r.2.1, r.2.2)
  | _, _ => (q, [QEntry.bypass event (env.dispatchOk event)],
             !env.dispatchOk event)

/-- A whole run: the incoming multiplexed event stream fed one event at a
time into `EventsQueue.enqueue`, concatenating the traces. -/
def runQueue (env : Env) (fuel : Nat) :
    List RawEvent → EventsQueue → EventsQueue × List QEntry
  | [], q => (q, [])
  | ev :: rest, q =>
    let r := EventsQueue.enqueue env fuel q ev
    let r2 := runQueue env fuel rest r.1
    (r2.1, r.2.1 ++ r2.2)

/-- The ids of the events successfully handed to the Dispatcher by the drain
loop of conversation `c`, in trace order. -/
def convSuccIds (tr : List QEntry) (c : String) : List ℚ :=
  tr.filterMap (fun e => match e with
    | QEntry.conv c' (PEntry.disp ev true) => if c' = c then ev.id else none
    | _ => none)

/-- The ids of successfully dispatched events in a processor trace. -/
def dispSuccIds (tr : List PEntry) : List ℚ :=
  tr.filterMap (fun e => match e with
    | PEntry.disp ev true => ev.id
    | _ => none)

/-- Projection of a trace to its dispatcher invocations (event and outcome). -/
def dispOf : PEntry → Option (RawEvent × Bool)
  | PEntry.disp e b => some (e, b)
  | _ => none

/-- Well-formedness of the pending map: every stored key is the stored
event's (numeric) id, a genuine rational, and bounded by the high-water mark.
This holds by construction because every call of `enqueue` in the source
passes `Number(event.id)` as the key, keys are only stored when a `>`
comparison against them succeeds, and the mark is raised before storing. -/
def WFmap (s : ConversationEventsProcessor) : Prop :=
  ∀ kv ∈ s.eventsMap, kv.1 = kv.2.id ∧ ∃ q : ℚ, kv.1 = some q ∧
    ∀ w, s.largestEventIdInQueue = some w → q ≤ w

/-- `lastProcessed ≤ highWaterMark` whenever `lastProcessed` is numeric. -/
def WFle (s : ConversationEventsProcessor) : Prop :=
  ∀ l, s.lastEventIdProcessed = some l →
    ∃ w, s.largestEventIdInQueue = some w ∧ l ≤ w

/-- The high-water mark is numeric (never `NaN`). -/
def WFmark (s : ConversationEventsProcessor) : Prop :=
  ∃ w, s.largestEventIdInQueue = some w

/-- Combined processor well-formedness. -/
def WF (s : ConversationEventsProcessor) : Prop := WFmap s ∧ WFle s ∧ WFmark s

/-- The spec's second state invariant: the pending map never contains a key
`≤ lastProcessed`. -/
def PendingAbove (s : ConversationEventsProcessor) : Prop :=
  ∀ kv ∈ s.eventsMap, ∀ l, s.lastEventIdProcessed = some l →
    ∃ q : ℚ, kv.1 = some q ∧ l < q

/-- Queue-level well-formedness: every tracked processor is well-formed. -/
def QWF (q : EventsQueue) : Prop :=
  ∀ c p, mapGet q.cidMap c = some p → WF p

/-- The global invariant tying a run's trace to the queue state: per
conversation, the successfully dispatched ids are strictly increasing and all
bounded by that conversation's `lastEventIdProcessed`. -/
def TraceInv (q : EventsQueue) (tr : List QEntry) : Prop :=
  QWF q ∧ ∀ c, List.Pairwise (· < ·) (convSuccIds tr c) ∧
    ∀ m ∈ convSuccIds tr c, ∃ p, mapGet q.cidMap c = some p ∧
      ∃ l, p.lastEventIdProcessed = some l ∧ m ≤ l

/-- Conclusion of the master lemma for `processNextEvent`: the call does not
touch `lastEventIdProcessed`, `cid`, `processing` or the fetch range, moves
the high-water mark only upward, dispatches only events with a numeric id at
least the requested id and at most the final mark, returns `some e` exactly
when its trace carries the single successful dispatch of `e`, and performs no
dispatches at all when the requested id is `NaN`. -/
def ConversationEventsProcessor.PNESpec (s : ConversationEventsProcessor) (v : JsNum)
    (r : ConversationEventsProcessor × List PEntry × Option RawEvent × Bool) :
    Prop :=
  WF r.1 ∧
  r.1.lastEventIdProcessed = s.lastEventIdProcessed ∧
  r.1.cid = s.cid ∧
  r.1.processing = s.processing ∧
  r.1.eventsFetchRange = s.eventsFetchRange ∧
  (∀ w, s.largestEventIdInQueue = some w →
    ∃ w', r.1.largestEventIdInQueue = some w' ∧ w ≤ w') ∧
  (∀ e b, PEntry.disp e b ∈ r.2.1 →
    ∃ m, e.id = some m ∧ (∀ x, v = some x → x ≤ m) ∧
      (∀ w', r.1.largestEventIdInQueue = some w' → m ≤ w')) ∧
  ((∃ e, r.2.2.1 = some e ∧ r.2.1.filterMap dispOf = [(e, true)]) ∨
   (r.2.2.1 = none ∧ (r.2.1.filterMap dispOf = [] ∨
     (∃ tr' e, r.2.1 = tr' ++ [PEntry.disp e false] ∧
       tr'.filterMap dispOf = [])))) ∧
  (v = none → r.2.1 = [] ∧ r.2.2.1 = none)

/-- Conclusion of the master lemma for a whole drain pass `processEvents`:
well-formedness is preserved; the successfully dispatched ids are strictly
increasing, all strictly above the initial `lastEventIdProcessed` and at most
the final one; `lastEventIdProcessed` only moves up; nothing is dispatched
when `lastEventIdProcessed` is `NaN`; a failed dispatch is the last trace
entry, leaves the loop `IDLE` and leaves `lastEventIdProcessed` strictly
below the failed event's id; and a completed pass always ends with an empty
pending map and `processing = false`. -/
def ConversationEventsProcessor.PESpec (s : ConversationEventsProcessor)
    (r : ConversationEventsProcessor × List PEntry × Bool) : Prop :=
  WF r.1 ∧
  r.1.cid = s.cid ∧
  r.1.eventsFetchRange = s.eventsFetchRange ∧
  List.Pairwise (· < ·) (dispSuccIds r.2.1) ∧
  (∀ e b, PEntry.disp e b ∈ r.2.1 → ∃ m, e.id = some m ∧
    (∀ l, s.lastEventIdProcessed = some l → l < m)) ∧
  (∀ m ∈ dispSuccIds r.2.1, ∀ l', r.1.lastEventIdProcessed = some l' →
    m ≤ l') ∧
  (∀ l, s.lastEventIdProcessed = some l →
    ∃ l', r.1.lastEventIdProcessed = some l' ∧ l ≤ l') ∧
  (s.lastEventIdProcessed = none → r.2.1.filterMap dispOf = [] ∧
    r.1.lastEventIdProcessed = none) ∧
  (∀ e, PEntry.disp e false ∈ r.2.1 →
    (∃ tr', r.2.1 = tr' ++ [PEntry.disp e false]) ∧ r.1.processing = false ∧
    (∀ m, e.id = some m → ∀ l', r.1.lastEventIdProcessed = some l' →
      l' < m)) ∧
  (r.2.2 = true → r.1.eventsMap = [] ∧ r.1.processing = false)

/-- A plain text event with numeric id `i` and payload `pl`. -/
def mkEv (i : ℚ) (c : Option String) (t fr : String) (pl : Nat) : RawEvent :=
  { id := some i, cid := c, type := t, from_ := fr, hasMediaAudio := false,
    hasChannelId := false, payload := pl }

/-- A trivial environment: fetches succeed with no events, dispatch resolves. -/
def envTriv : Env := { fetchResult := fun _ _ => some [], dispatchOk := fun _ => true }

/-- An environment whose dispatcher always rejects. -/
def envNoDispatch : Env :=
  { fetchResult := fun _ _ => some [], dispatchOk := fun _ => false }

/-- An environment whose history fetches always reject. -/
def envFail : Env := { fetchResult := fun _ _ => none, dispatchOk := fun _ => true }

/-- C2 scenario: the fetch for the gap at 11 (requested window `[11,22]`)
returns only ids 12 and 13. -/
def e12r : RawEvent := mkEv 12 none "text" "bob" 12
def e13r : RawEvent := mkEv 13 none "text" "bob" 130
def e13q : RawEvent := mkEv 13 (some "c") "text" "bob" 13
def envC2 : Env :=
  { fetchResult := fun st en =>
      if st = some 11 ∧ en = some 22 then some [e12r, e13r] else some []
    dispatchOk := fun _ => true }

/-- C2 initial state: `lastProcessed = 10`, `highWaterMark = 13` via an
enqueued id 13, with id 11 missing, mid-drain. -/
def sC2 : ConversationEventsProcessor :=
  { (mkProcessor "c" (some 10)).enqueue (some 13) e13q with processing := true }

/-- C3 scenario: the server history for the conversation holds exactly the
events 11, 12, 13; a fetch returns the events of the requested id range. -/
def histC3 : List RawEvent :=
  [mkEv 11 none "text" "bob" 11, mkEv 12 none "text" "bob" 12,
   mkEv 13 none "text" "bob" 13]
def envC3 : Env :=
  { fetchResult := fun st en =>
      some (histC3.filter (fun e => jltb st (jadd1 e.id) ∧ jltb e.id (jadd1 en)))
    dispatchOk := fun _ => true }

/-- C3 initial state: `lastProcessed = 10`, `highWaterMark = 15` via an
enqueued id 15, mid-drain. -/
def eC3q : RawEvent := mkEv 15 (some "c") "text" "bob" 15
def sC3 : ConversationEventsProcessor :=
  { (mkProcessor "c" (some 10)).enqueue (some 15) eC3q with processing := true }

/-- The triggering `member:joined` event with a channel id (bootstrap case). -/
def trigMJ : RawEvent :=
  { id := some 10, cid := some "conv1", type := "member:joined",
    from_ := "alice", hasMediaAudio := false, hasChannelId := true,
    payload := 100 }

/-- C6 scenario history: ids 1..9 with a single `rtc:transfer` from the same
originator at id 5. -/
def t5 : RawEvent :=
  { id := some 5, cid := none, type := "rtc:transfer", from_ := "alice",
    hasMediaAudio := false, hasChannelId := false, payload := 5 }
def preC6 : List RawEvent :=
  [mkEv 1 none "text" "bob" 1, mkEv 2 none "text" "bob" 2,
   mkEv 3 none "text" "bob" 3, mkEv 4 none "text" "bob" 4]
def postC6 : List RawEvent :=
  [mkEv 6 none "text" "bob" 6, mkEv 7 none "text" "bob" 7,
   mkEv 8 none "text" "bob" 8, mkEv 9 none "text" "bob" 9]
def envC6 : Env :=
  { fetchResult := fun _ _ => some (preC6 ++ t5 :: postC6)
    dispatchOk := fun _ => true }

/-- C4 counterexample history: two `rtc:transfer` events from the same
originator, at ids 5 and 8. -/
def t8 : RawEvent :=
  { id := some 8, cid := none, type := "rtc:transfer", from_ := "alice",
    hasMediaAudio := false, hasChannelId := false, payload := 8 }
def envC4 : Env :=
  { fetchResult := fun _ _ =>
      some [t5, mkEv 6 none "text" "bob" 6, t8, mkEv 9 none "text" "bob" 9]
    dispatchOk := fun _ => true }

/-- C7 witness state: pending holds id 1, `lastProcessed = 0`, mid-drain. -/
def e1w : RawEvent := mkEv 1 (some "c") "text" "bob" 1
def sC7 : ConversationEventsProcessor :=
  { cid := "c", eventsMap := [(some 1, e1w)], lastEventIdProcessed := some 0,
    largestEventIdInQueue := some 1, processing := true, eventsFetchRange := 9 }

/-- C8 scenario: two enqueues of id 21 with different payloads, then a drain. -/
def e21a : RawEvent := mkEv 21 (some "c") "text" "bob" 211
def e21b : RawEvent := mkEv 21 (some "c") "text" "bob" 212
def sC8 : ConversationEventsProcessor :=
  { ((mkProcessor "c" (some 20)).enqueue (some 21) e21a).enqueue (some 21) e21b
    with processing := true }

/-- C9 counterexample: an event with a conversation id and the non-integer
(but numeric, hence not NaN) id `7/2`. -/
def evHalf : RawEvent :=
  { id := some (7/2), cid := some "c9", type := "text", from_ := "bob",
    hasMediaAudio := false, hasChannelId := false, payload := 9 }

/-- A double-transfer bootstrap result: after scanning two matching
`rtc:transfer` events (ids 5 and 8), `lastEventIdProcessed` is rewound to 7
while ids 5 and 6 are still buffered in `pending`. -/
def pC4 : ConversationEventsProcessor :=
  { cid := "c",
    eventsMap := [(some 5, t5), (some 6, mkEv 6 none "text" "bob" 6),
      (some 8, t8), (some 9, mkEv 9 none "text" "bob" 9)],
    lastEventIdProcessed := some 7, largestEventIdInQueue := some 9,
    processing := false, eventsFetchRange := 9 }

/-- Folding plain enqueues of a list of events (keyed, as everywhere in the
source, by `Number(event.id)`). -/
def enqueueAll (s : ConversationEventsProcessor) (l : List RawEvent) :
    ConversationEventsProcessor :=
  l.foldl (fun a e => a.enqueue e.id e) s

/-- An event without a conversation id (bypass case). -/
def evNoCid : RawEvent :=
  { id := some 1, cid := none, type := "text", from_ := "bob",
    hasMediaAudio := false, hasChannelId := false, payload := 3 }

section MapLemmas

variable {κ ν : Type} [DecidableEq κ]

theorem mapSet_mem {m : List (κ × ν)} {k : κ} {v : ν} {kv : κ × ν}
    (h : kv ∈ mapSet m k v) : kv = (k, v) ∨ kv ∈ m := by
  unfold mapSet at h
  split at h
  · rcases List.mem_map.1 h with ⟨kv', hkv', heq⟩
    by_cases hk : kv'.1 = k
    · simp only [if_pos hk] at heq; left; exact heq.symm
    · simp only [if_neg hk] at heq; right; exact heq ▸ hkv'
  · rcases List.mem_append.1 h with h' | h'
    · right; exact h'
    · left; simpa using h'

end MapLemmas

section MapLemmas2

variable {κ ν : Type} [DecidableEq κ]

theorem mapGet_cons {hd : κ × ν} {tl : List (κ × ν)} {k : κ} :
    mapGet (hd :: tl) k = if hd.1 = k then some hd.2 else mapGet tl k := by
  by_cases h : hd.1 = k
  · simp [mapGet, List.find?, h]
  · simp [mapGet, List.find?, h]

theorem mapGet_mem {m : List (κ × ν)} {k : κ} {v : ν}
    (h : mapGet m k = some v) : (k, v) ∈ m := by
  induction m with
  | nil => simp [mapGet] at h
  | cons hd tl ih =>
    rw [mapGet_cons] at h
    by_cases hhd : hd.1 = k
    · rw [if_pos hhd] at h
      obtain ⟨a, b⟩ := hd
      simp only at hhd h
      subst hhd
      rw [Option.some_inj.1 h]
      exact List.mem_cons_self _ _
    · rw [if_neg hhd] at h
      exact List.mem_cons_of_mem hd (ih h)

theorem mapGet_none_of_keys {m : List (κ × ν)} {k : κ}
    (h : ∀ kv ∈ m, kv.1 ≠ k) : mapGet m k = none := by
  induction m with
  | nil => rfl
  | cons hd tl ih =>
    rw [mapGet_cons, if_neg (h hd (List.mem_cons_self hd tl))]
    exact ih (fun kv hkv => h kv (List.mem_cons_of_mem hd hkv))

theorem mapGet_map_ne {m : List (κ × ν)} {k k' : κ} {v : ν} (h : k' ≠ k) :
    mapGet (m.map (fun kv => if kv.1 = k then (k, v) else kv)) k' =
      mapGet m k' := by
  induction m with
  | nil => rfl
  | cons hd tl ih =>
    by_cases hhd : hd.1 = k
    · rw [List.map_cons, if_pos hhd, mapGet_cons, mapGet_cons]
      rw [if_neg (by simpa using Ne.symm h), if_neg (by rw [hhd]; exact Ne.symm h)]
      exact ih
    · rw [List.map_cons, if_neg hhd, mapGet_cons, mapGet_cons]
      by_cases hk' : hd.1 = k'
      · rw [if_pos hk', if_pos hk']
      · rw [if_neg hk', if_neg hk']
        exact ih

theorem mapGet_append {m m' : List (κ × ν)} {k : κ} :
    mapGet (m ++ m') k = (mapGet m k).orElse (fun _ => mapGet m' k) := by
  induction m with
  | nil => simp [mapGet]
  | cons hd tl ih =>
    rw [List.cons_append, mapGet_cons, mapGet_cons]
    by_cases hhd : hd.1 = k
    · rw [if_pos hhd, if_pos hhd]; rfl
    · rw [if_neg hhd, if_neg hhd]; exact ih

theorem mapSet_cons_ne {hd : κ × ν} {tl : List (κ × ν)} {k : κ} {v : ν}
    (hhd : ¬ hd.1 = k) : mapSet (hd :: tl) k v = hd :: mapSet tl k v := by
  unfold mapSet
  by_cases hany : (tl.any fun kv => decide (kv.1 = k)) = true
  · simp [List.any_cons, hhd, hany]
  · simp [List.any_cons, hhd, hany]

theorem mapGet_set_self {m : List (κ × ν)} {k : κ} {v : ν} :
    mapGet (mapSet m k v) k = some v := by
  induction m with
  | nil => simp [mapSet, mapGet, List.find?]
  | cons hd tl ih =>
    by_cases hhd : hd.1 = k
    · unfold mapSet
      rw [if_pos (List.any_eq_true.2 ⟨hd, List.mem_cons_self hd tl, by simp [hhd]⟩)]
      rw [List.map_cons, if_pos hhd, mapGet_cons, if_pos rfl]
    · rw [mapSet_cons_ne hhd, mapGet_cons, if_neg hhd]
      exact ih

theorem mapGet_set_ne {m : List (κ × ν)} {k k' : κ} {v : ν} (h : k' ≠ k) :
    mapGet (mapSet m k v) k' = mapGet m k' := by
  unfold mapSet
  split
  · exact mapGet_map_ne h
  · rw [mapGet_append]
    rcases hm : mapGet m k' with _ | w
    · simp [hm, mapGet_cons, mapGet, Ne.symm h]
    · simp [hm]

theorem mapSet_mem_or {m : List (κ × ν)} {k : κ} {v : ν} {kv : κ × ν}
    (h : kv ∈ mapSet m k v) : kv = (k, v) ∨ kv ∈ m := by
  exact mapSet_mem h

theorem mapDelete_sub {m : List (κ × ν)} {k : κ} {kv : κ × ν}
    (h : kv ∈ mapDelete m k) : kv ∈ m :=
  List.mem_of_mem_filter h

theorem mapDelete_key_ne {m : List (κ × ν)} {k : κ} {kv : κ × ν}
    (h : kv ∈ mapDelete m k) : kv.1 ≠ k := by
  have := List.of_mem_filter h
  simpa using this

end MapLemmas2

theorem jgtb_iff {x y : JsNum} :
    jgtb x y = true ↔ ∃ a b, x = some a ∧ y = some b ∧ b < a := by
  cases x with
  | none => simp [jgtb]
  | some a =>
    cases y with
    | none => simp [jgtb]
    | some b => simp [jgtb]

theorem jgtb_some_some {a b : ℚ} : jgtb (some a) (some b) = true ↔ b < a := by
  simp [jgtb]

theorem jltb_some_some {a b : ℚ} : jltb (some a) (some b) = true ↔ a < b := by
  simp [jltb]

theorem jgtb_none_right {x : JsNum} : jgtb x none = false := by
  cases x <;> rfl

theorem jgtb_none_left {y : JsNum} : jgtb none y = false := rfl

namespace ConversationEventsProcessor

theorem enqueue_def (s : ConversationEventsProcessor) (k : JsNum)
    (e : RawEvent) :
    s.enqueue k e =
      { s with
        largestEventIdInQueue :=
          if jgtb k s.largestEventIdInQueue then k
          else s.largestEventIdInQueue,
        eventsMap :=
          if jgtb k s.lastEventIdProcessed then mapSet s.eventsMap k e
          else s.eventsMap } := by
  unfold enqueue
  by_cases h1 : jgtb k s.largestEventIdInQueue <;>
    by_cases h2 : jgtb k s.lastEventIdProcessed <;>
      simp [h1, h2]

theorem enqueue_last (s : ConversationEventsProcessor) (k : JsNum)
    (e : RawEvent) :
    (s.enqueue k e).lastEventIdProcessed = s.lastEventIdProcessed := by
  rw [enqueue_def]

theorem enqueue_cid (s : ConversationEventsProcessor) (k : JsNum)
    (e : RawEvent) : (s.enqueue k e).cid = s.cid := by
  rw [enqueue_def]

theorem enqueue_processing (s : ConversationEventsProcessor) (k : JsNum)
    (e : RawEvent) : (s.enqueue k e).processing = s.processing := by
  rw [enqueue_def]

theorem enqueue_range (s : ConversationEventsProcessor) (k : JsNum)
    (e : RawEvent) :
    (s.enqueue k e).eventsFetchRange = s.eventsFetchRange := by
  rw [enqueue_def]

theorem enqueue_mark (s : ConversationEventsProcessor) (k : JsNum)
    (e : RawEvent) :
    (s.enqueue k e).largestEventIdInQueue =
      if jgtb k s.largestEventIdInQueue then k
      else s.largestEventIdInQueue := by
  rw [enqueue_def]

theorem enqueue_map (s : ConversationEventsProcessor) (k : JsNum)
    (e : RawEvent) :
    (s.enqueue k e).eventsMap =
      if jgtb k s.lastEventIdProcessed then mapSet s.eventsMap k e
      else s.eventsMap := by
  rw [enqueue_def]

theorem enqueue_mark_mono {s : ConversationEventsProcessor} {k : JsNum}
    {e : RawEvent} {w : ℚ} (h : s.largestEventIdInQueue = some w) :
    ∃ w', (s.enqueue k e).largestEventIdInQueue = some w' ∧ w ≤ w' := by
  rw [enqueue_mark]
  by_cases h1 : jgtb k s.largestEventIdInQueue
  · rw [if_pos h1]
    rcases jgtb_iff.1 h1 with ⟨a, b, hk, hw, hlt⟩
    rw [h] at hw
    have hwb : w = b := Option.some_inj.1 hw
    subst hwb
    exact ⟨a, hk, le_of_lt hlt⟩
  · rw [if_neg h1]
    exact ⟨w, h, le_refl w⟩

theorem WF_enqueue {s : ConversationEventsProcessor} {k : JsNum}
    {e : RawEvent} (hs : WF s) (hk : k = e.id) : WF (s.enqueue k e) := by
  obtain ⟨hm, hle, w, hw⟩ := hs
  obtain ⟨w', hw', hww'⟩ := enqueue_mark_mono (e := e) (k := k) hw
  refine ⟨?_, ?_, ⟨w', hw'⟩⟩
  · intro kv hkv
    rw [enqueue_map] at hkv
    split at hkv
    · rename_i h2
      rcases jgtb_iff.1 h2 with ⟨a, b, hka, hlb, hba⟩
      rcases mapSet_mem hkv with rfl | hold
      · refine ⟨hk, a, hka, ?_⟩
        intro w0 hw0
        rw [enqueue_mark] at hw0
        by_cases h1 : jgtb k s.largestEventIdInQueue
        · rw [if_pos h1] at hw0
          rw [hka] at hw0
          exact le_of_eq (Option.some_inj.1 hw0)
        · rw [if_neg h1] at hw0
          rw [hka, hw0, jgtb_some_some] at h1
          exact le_of_not_lt h1
      · obtain ⟨hid, q, hq, hqw⟩ := hm kv hold
        refine ⟨hid, q, hq, ?_⟩
        intro w0 hw0
        rw [hw'] at hw0
        have hvw : w' = w0 := Option.some_inj.1 hw0
        subst hvw
        exact le_trans (hqw w hw) hww'
    · obtain ⟨hid, q, hq, hqw⟩ := hm kv hkv
      refine ⟨hid, q, hq, ?_⟩
      intro w0 hw0
      rw [hw'] at hw0
      have hvw : w' = w0 := Option.some_inj.1 hw0
      subst hvw
      exact le_trans (hqw w hw) hww'
  · intro l hl
    rw [enqueue_last] at hl
    obtain ⟨w0, hw0, hlw0⟩ := hle l hl
    rw [hw] at hw0
    have hvw : w = w0 := Option.some_inj.1 hw0
    subst hvw
    exact ⟨w', hw', le_trans hlw0 hww'⟩

theorem PendingAbove_enqueue {s : ConversationEventsProcessor} {k : JsNum}
    {e : RawEvent} (h : PendingAbove s) : PendingAbove (s.enqueue k e) := by
  intro kv hkv l hl
  rw [enqueue_last] at hl
  rw [enqueue_map] at hkv
  split at hkv
  · rename_i h2
    rcases jgtb_iff.1 h2 with ⟨a, b, hka, hlb, hba⟩
    rcases mapSet_mem hkv with rfl | hold
    · rw [hl] at hlb
      have : l = b := Option.some_inj.1 hlb
      subst this
      exact ⟨a, hka, hba⟩
    · exact h kv hold l hl
  · exact h kv hkv l hl

theorem WF_dequeue {s : ConversationEventsProcessor} {k : JsNum}
    (hs : WF s) : WF (s.dequeue k).2 := by
  obtain ⟨hm, hle, w, hw⟩ := hs
  exact ⟨fun kv hkv => hm kv (mapDelete_sub hkv), hle, w, hw⟩

theorem WF_mkProcessor (cid : String) (l : ℚ) :
    WF (mkProcessor cid (some l)) := by
  refine ⟨?_, ?_, ⟨l, rfl⟩⟩
  · intro kv hkv
    simp [mkProcessor] at hkv
  · intro l' hl'
    simp only [mkProcessor] at hl'
    have h := Option.some_inj.1 hl'
    subst h
    exact ⟨l, rfl, le_refl l⟩

theorem mergeStep_last (c : String) (miss : JsNum)
    (acc : ConversationEventsProcessor × Option RawEvent) (ev : RawEvent) :
    (mergeStep c miss acc ev).1.lastEventIdProcessed =
      acc.1.lastEventIdProcessed := by
  unfold mergeStep
  dsimp only
  split
  · rfl
  · split
    · exact enqueue_last _ _ _
    · rfl

theorem mergeStep_cid (c : String) (miss : JsNum)
    (acc : ConversationEventsProcessor × Option RawEvent) (ev : RawEvent) :
    (mergeStep c miss acc ev).1.cid = acc.1.cid := by
  unfold mergeStep
  dsimp only
  split
  · rfl
  · split
    · exact enqueue_cid _ _ _
    · rfl

theorem mergeStep_processing (c : String) (miss : JsNum)
    (acc : ConversationEventsProcessor × Option RawEvent) (ev : RawEvent) :
    (mergeStep c miss acc ev).1.processing = acc.1.processing := by
  unfold mergeStep
  dsimp only
  split
  · rfl
  · split
    · exact enqueue_processing _ _ _
    · rfl

theorem mergeStep_range (c : String) (miss : JsNum)
    (acc : ConversationEventsProcessor × Option RawEvent) (ev : RawEvent) :
    (mergeStep c miss acc ev).1.eventsFetchRange = acc.1.eventsFetchRange := by
  unfold mergeStep
  dsimp only
  split
  · rfl
  · split
    · exact enqueue_range _ _ _
    · rfl

theorem mergeStep_WF {c : String} {miss : JsNum}
    {acc : ConversationEventsProcessor × Option RawEvent} {ev : RawEvent}
    (h : WF acc.1) : WF (mergeStep c miss acc ev).1 := by
  unfold mergeStep
  dsimp only
  split
  · exact h
  · split
    · exact WF_enqueue h rfl
    · exact h

theorem mergeStep_mark_mono {c : String} {miss : JsNum}
    {acc : ConversationEventsProcessor × Option RawEvent} {ev : RawEvent}
    {w : ℚ} (h : acc.1.largestEventIdInQueue = some w) :
    ∃ w', (mergeStep c miss acc ev).1.largestEventIdInQueue = some w' ∧
      w ≤ w' := by
  unfold mergeStep
  dsimp only
  split
  · exact ⟨w, h, le_refl w⟩
  · split
    · exact enqueue_mark_mono h
    · exact ⟨w, h, le_refl w⟩

theorem mergeStep_found {c : String} {m : ℚ}
    {acc : ConversationEventsProcessor × Option RawEvent} {ev : RawEvent}
    (h : ∀ e0, acc.2 = some e0 → e0.id = some m) :
    ∀ e0, (mergeStep c (some m) acc ev).2 = some e0 → e0.id = some m := by
  intro e0 he0
  unfold mergeStep at he0
  dsimp only at he0
  split at he0
  · exact h e0 he0
  · rename_i hcond
    push_neg at hcond
    obtain ⟨hnn, hnlt⟩ := hcond
    split at he0
    · exact h e0 he0
    · rename_i hngt
      have he : e0 = { ev with cid := some c } := (Option.some_inj.1 he0).symm
      subst he
      show ev.id = some m
      rcases hid : ev.id with _ | q
      · exact absurd hid hnn
      · rw [hid] at hnlt hngt
        have hnlt' : ¬ q < m := fun hc => hnlt (jltb_some_some.2 hc)
        have hngt' : ¬ m < q := fun hc => hngt (jgtb_some_some.2 hc)
        have hqm : q = m :=
          le_antisymm (le_of_not_lt hngt') (le_of_not_lt hnlt')
        rw [hqm]

theorem foldl_mergeStep_spec {c : String} {miss : JsNum} :
    ∀ (l : List RawEvent) (acc : ConversationEventsProcessor × Option RawEvent),
      WF acc.1 →
      WF (l.foldl (mergeStep c miss) acc).1 ∧
      (l.foldl (mergeStep c miss) acc).1.lastEventIdProcessed =
        acc.1.lastEventIdProcessed ∧
      (l.foldl (mergeStep c miss) acc).1.cid = acc.1.cid ∧
      (l.foldl (mergeStep c miss) acc).1.processing = acc.1.processing ∧
      (l.foldl (mergeStep c miss) acc).1.eventsFetchRange =
        acc.1.eventsFetchRange ∧
      (∀ w, acc.1.largestEventIdInQueue = some w →
        ∃ w', (l.foldl (mergeStep c miss) acc).1.largestEventIdInQueue =
          some w' ∧ w ≤ w') := by
  intro l
  induction l with
  | nil => intro acc h; exact ⟨h, rfl, rfl, rfl, rfl, fun w hw => ⟨w, hw, le_refl w⟩⟩
  | cons hd tl ih =>
    intro acc h
    rw [List.foldl_cons]
    obtain ⟨h1, h2, h3, h4, h5, h6⟩ := ih (mergeStep c miss acc hd) (mergeStep_WF h)
    refine ⟨h1, by rw [h2, mergeStep_last], by rw [h3, mergeStep_cid],
      by rw [h4, mergeStep_processing], by rw [h5, mergeStep_range], ?_⟩
    intro w hw
    obtain ⟨w', hw', hww'⟩ := @mergeStep_mark_mono c miss acc hd w hw
    obtain ⟨w'', hw'', hww''⟩ := h6 w' hw'
    exact ⟨w'', hw'', le_trans hww' hww''⟩

theorem foldl_mergeStep_found {c : String} {m : ℚ} :
    ∀ (l : List RawEvent) (acc : ConversationEventsProcessor × Option RawEvent),
      (∀ e0, acc.2 = some e0 → e0.id = some m) →
      ∀ e0, (l.foldl (mergeStep c (some m)) acc).2 = some e0 →
        e0.id = some m := by
  intro l
  induction l with
  | nil => intro acc h; exact h
  | cons hd tl ih =>
    intro acc h
    rw [List.foldl_cons]
    exact ih (mergeStep c (some m) acc hd) (mergeStep_found h)

theorem fetchEventsAndProcess_spec {env : Env}
    {s : ConversationEventsProcessor} {miss : JsNum} (hwf : WF s) :
    WF (fetchEventsAndProcess env s miss).1 ∧
    (fetchEventsAndProcess env s miss).1.lastEventIdProcessed =
      s.lastEventIdProcessed ∧
    (fetchEventsAndProcess env s miss).1.cid = s.cid ∧
    (fetchEventsAndProcess env s miss).1.processing = s.processing ∧
    (fetchEventsAndProcess env s miss).1.eventsFetchRange =
      s.eventsFetchRange ∧
    (∀ w, s.largestEventIdInQueue = some w →
      ∃ w', (fetchEventsAndProcess env s miss).1.largestEventIdInQueue =
        some w' ∧ w ≤ w') ∧
    ((fetchEventsAndProcess env s miss).2.1.filterMap dispOf = []) ∧
    (∀ m e0, miss = some m → (fetchEventsAndProcess env s miss).2.2 = some e0 →
      e0.id = some m) := by
  unfold fetchEventsAndProcess
  rcases hres : fetchConversationEvents env s miss s.eventsFetchRange with ⟨r1, r2⟩
  have hlog : r2 = PEntry.fetch miss (if jgtb s.largestEventIdInQueue miss then
      jaddC s.largestEventIdInQueue s.eventsFetchRange
    else jaddC miss s.eventsFetchRange) := by
    unfold fetchConversationEvents at hres
    exact (congrArg Prod.snd hres).symm
  rcases r1 with _ | eventsList
  · refine ⟨hwf, rfl, rfl, rfl, rfl, fun w hw => ⟨w, hw, le_refl w⟩, ?_, ?_⟩
    · subst hlog; simp [dispOf]
    · intro m e0 _ hc; simp at hc
  · obtain ⟨h1, h2, h3, h4, h5, h6⟩ :=
      foldl_mergeStep_spec eventsList (s, none) hwf
    refine ⟨h1, h2, h3, h4, h5, h6, ?_, ?_⟩
    · subst hlog; simp [dispOf]
    · intro m e0 hm he0
      subst hm
      exact foldl_mergeStep_found eventsList (s, none) (by intro e0 h; simp at h) e0 he0

theorem mapGet_none_of_WFmap {s : ConversationEventsProcessor}
    (h : WFmap s) : mapGet s.eventsMap none = none :=
  mapGet_none_of_keys (fun kv hkv => by
    obtain ⟨_, q, hq, _⟩ := h kv hkv
    simp [hq])

theorem no_disp_of_filterMap_nil {l : List PEntry}
    (h : l.filterMap dispOf = []) {e : RawEvent} {b : Bool}
    (hmem : PEntry.disp e b ∈ l) : False := by
  have hx : (e, b) ∈ l.filterMap dispOf :=
    List.mem_filterMap.2 ⟨_, hmem, rfl⟩
  rw [h] at hx
  simp at hx

theorem processNextEvent_succ (env : Env) (n : Nat)
    (s : ConversationEventsProcessor) (v : JsNum) :
    processNextEvent env (Nat.succ n) s v =
      match mapGet s.eventsMap v with
      | some event =>
        if env.dispatchOk event then
          ({ s with eventsMap := mapDelete s.eventsMap v },
            [PEntry.disp event true], some event, true)
        else
          ({ s with eventsMap := mapDelete s.eventsMap v },
            [PEntry.disp event false], none, true)
      | none =>
        if jgtb s.largestEventIdInQueue v then
          let f := fetchEventsAndProcess env
            { s with eventsMap := mapDelete s.eventsMap v } v
          match f.2.2 with
          | some foundEvent =>
            if env.dispatchOk foundEvent then
              (f.1, f.2.1 ++ [PEntry.disp foundEvent true], some foundEvent, true)
            else
              (f.1, f.2.1 ++ [PEntry.disp foundEvent false], none, true)
          | none =>
            let r := processNextEvent env n f.1 (jadd1 v)
            (r.1, f.2.1 ++ r.2.1, r.2.2)
        else ({ s with eventsMap := mapDelete s.eventsMap v }, [], none, true) := by
  rfl


theorem processNextEvent_spec (env : Env) :
    ∀ (fuel : Nat) (s : ConversationEventsProcessor) (v : JsNum), WF s →
      PNESpec s v (processNextEvent env fuel s v) := by
  intro fuel
  induction fuel with
  | zero =>
    intro s v hwf
    exact ⟨hwf, rfl, rfl, rfl, rfl, fun w hw => ⟨w, hw, le_refl w⟩,
      by intro e b h; simp [processNextEvent] at h,
      Or.inr ⟨rfl, Or.inl rfl⟩, fun _ => ⟨rfl, rfl⟩⟩
  | succ n ih =>
    intro s v hwf
    rw [processNextEvent_succ]
    obtain ⟨hwm, hwle, w0, hw0⟩ := hwf
    have hwfd : WF { s with eventsMap := mapDelete s.eventsMap v } := by
      refine ⟨fun kv hkv => hwm kv (mapDelete_sub hkv), hwle, w0, hw0⟩
    rcases hget : mapGet s.eventsMap v with _ | ev
    · dsimp only
      by_cases hgt : jgtb s.largestEventIdInQueue v
      · simp only [hgt, if_true]
        obtain ⟨hf1, hf2, hf3, hf4, hf5, hf6, hf7, hf8⟩ :=
          @fetchEventsAndProcess_spec env
            { s with eventsMap := mapDelete s.eventsMap v } v hwfd
        rcases jgtb_iff.1 hgt with ⟨wg, xg, hwgm, hvx, hxw⟩
        rcases hfound : (fetchEventsAndProcess env
            { s with eventsMap := mapDelete s.eventsMap v } v).2.2 with _ | foundEvent
        · dsimp only
          obtain ⟨hr1, hr2, hr3, hr4, hr5, hr6, hr7, hr8, hr9⟩ :=
            ih (fetchEventsAndProcess env
              { s with eventsMap := mapDelete s.eventsMap v } v).1 (jadd1 v) hf1
          refine ⟨hr1, by rw [hr2, hf2], by rw [hr3, hf3], by rw [hr4, hf4],
            by rw [hr5, hf5], ?_, ?_, ?_, ?_⟩
          · intro w hw
            obtain ⟨w', hw', hww'⟩ := hf6 w hw
            obtain ⟨w'', hw'', hww''⟩ := hr6 w' hw'
            exact ⟨w'', hw'', le_trans hww' hww''⟩
          · intro e b hmem
            rcases List.mem_append.1 hmem with hmem | hmem
            · exact absurd hmem (fun hc => no_disp_of_filterMap_nil hf7 hc)
            · obtain ⟨m, hm1, hm2, hm3⟩ := hr7 e b hmem
              refine ⟨m, hm1, ?_, hm3⟩
              intro x hx
              have := hm2 (x + 1) (by rw [hx]; rfl)
              linarith
          · rw [List.filterMap_append, hf7, List.nil_append]
            rcases hr8 with ⟨e, he1, he2⟩ | ⟨he1, he2 | ⟨tr', e, he2, he3⟩⟩
            · exact Or.inl ⟨e, he1, he2⟩
            · exact Or.inr ⟨he1, Or.inl he2⟩
            · refine Or.inr ⟨he1, Or.inr ⟨(fetchEventsAndProcess env
                { s with eventsMap := mapDelete s.eventsMap v } v).2.1 ++ tr', e, ?_, ?_⟩⟩
              · rw [he2, List.append_assoc]
              · rw [List.filterMap_append, hf7, List.nil_append, he3]
          · intro hv
            rw [hv, jgtb_none_right] at hgt
            simp at hgt
        · dsimp only
          have hfid : foundEvent.id = some xg := hf8 xg foundEvent hvx hfound
          by_cases hd : env.dispatchOk foundEvent
          · rw [if_pos hd]
            refine ⟨hf1, hf2, hf3, hf4, hf5, hf6, ?_, ?_, ?_⟩
            · intro e b hmem
              rcases List.mem_append.1 hmem with hmem | hmem
              · exact absurd hmem (fun hc => no_disp_of_filterMap_nil hf7 hc)
              · simp only [List.mem_singleton] at hmem
                have he : e = foundEvent ∧ b = true := by
                  cases hmem; exact ⟨rfl, rfl⟩
                refine ⟨xg, he.1 ▸ hfid, ?_, ?_⟩
                · intro x hx
                  rw [hvx] at hx
                  exact le_of_eq (Option.some_inj.1 hx).symm
                · intro w' hw'
                  obtain ⟨w'', hw'', hww''⟩ := hf6 wg hwgm
                  rw [hw''] at hw'
                  have : w'' = w' := Option.some_inj.1 hw'
                  subst this
                  exact le_of_lt (lt_of_lt_of_le hxw hww'')
            · exact Or.inl ⟨foundEvent, rfl, by
                rw [List.filterMap_append, hf7, List.nil_append]
                simp [dispOf]⟩
            · intro hv
              rw [hv] at hvx
              simp at hvx
          · rw [if_neg hd]
            refine ⟨hf1, hf2, hf3, hf4, hf5, hf6, ?_, ?_, ?_⟩
            · intro e b hmem
              rcases List.mem_append.1 hmem with hmem | hmem
              · exact absurd hmem (fun hc => no_disp_of_filterMap_nil hf7 hc)
              · simp only [List.mem_singleton] at hmem
                have he : e = foundEvent ∧ b = false := by
                  cases hmem; exact ⟨rfl, rfl⟩
                refine ⟨xg, he.1 ▸ hfid, ?_, ?_⟩
                · intro x hx
                  rw [hvx] at hx
                  exact le_of_eq (Option.some_inj.1 hx).symm
                · intro w' hw'
                  obtain ⟨w'', hw'', hww''⟩ := hf6 wg hwgm
                  rw [hw''] at hw'
                  have : w'' = w' := Option.some_inj.1 hw'
                  subst this
                  exact le_of_lt (lt_of_lt_of_le hxw hww'')
            · exact Or.inr ⟨rfl, Or.inr ⟨(fetchEventsAndProcess env
                { s with eventsMap := mapDelete s.eventsMap v } v).2.1,
                foundEvent, rfl, hf7⟩⟩
            · intro hv
              rw [hv] at hvx
              simp at hvx
      · simp only [hgt, if_false]
        exact ⟨hwfd, rfl, rfl, rfl, rfl, fun w hw => ⟨w, hw, le_refl w⟩,
          by intro e b h; simp at h,
          Or.inr ⟨rfl, Or.inl rfl⟩, fun _ => ⟨rfl, rfl⟩⟩
    · dsimp only
      have hkv := mapGet_mem hget
      obtain ⟨hid, q, hq, hqb⟩ := hwm (v, ev) hkv
      dsimp only at hid hq
      have hvnn : v ≠ none := by rw [hq]; simp
      by_cases hd : env.dispatchOk ev
      · rw [if_pos hd]
        refine ⟨hwfd, rfl, rfl, rfl, rfl, fun w hw => ⟨w, hw, le_refl w⟩, ?_,
          Or.inl ⟨ev, rfl, by simp [dispOf]⟩, fun hv => absurd hv hvnn⟩
        intro e b hmem
        simp only [List.mem_singleton] at hmem
        have he : e = ev := by cases hmem; rfl
        subst he
        refine ⟨q, by rw [← hid]; exact hq, ?_, ?_⟩
        · intro x hx
          rw [hq] at hx
          exact le_of_eq (Option.some_inj.1 hx).symm
        · intro w' hw'
          exact hqb w' hw'
      · rw [if_neg hd]
        refine ⟨hwfd, rfl, rfl, rfl, rfl, fun w hw => ⟨w, hw, le_refl w⟩, ?_,
          Or.inr ⟨rfl, Or.inr ⟨[], ev, rfl, rfl⟩⟩, fun hv => absurd hv hvnn⟩
        intro e b hmem
        simp only [List.mem_singleton] at hmem
        have he : e = ev := by cases hmem; rfl
        subst he
        refine ⟨q, by rw [← hid]; exact hq, ?_, ?_⟩
        · intro x hx
          rw [hq] at hx
          exact le_of_eq (Option.some_inj.1 hx).symm
        · intro w' hw'
          exact hqb w' hw'

theorem mem_dispSuccIds {tr : List PEntry} {m : ℚ} :
    m ∈ dispSuccIds tr ↔ ∃ e, PEntry.disp e true ∈ tr ∧ e.id = some m := by
  unfold dispSuccIds
  rw [List.mem_filterMap]
  constructor
  · rintro ⟨pe, hpe, hg⟩
    cases pe with
    | disp e b =>
      cases b with
      | true => exact ⟨e, hpe, hg⟩
      | false => simp at hg
    | fetch a b => simp at hg
  · rintro ⟨e, he, hid⟩
    exact ⟨PEntry.disp e true, he, hid⟩

theorem dispSuccIds_eq (tr : List PEntry) :
    dispSuccIds tr = (tr.filterMap dispOf).filterMap
      (fun p => if p.2 = true then p.1.id else none) := by
  induction tr with
  | nil => rfl
  | cons hd tl ih =>
    cases hd with
    | disp e b =>
      cases b with
      | true =>
        simp only [dispSuccIds, dispOf, List.filterMap_cons] at ih ⊢
        rcases e.id with _ | m <;> simp [ih]
      | false =>
        simp only [dispSuccIds, dispOf, List.filterMap_cons] at ih ⊢
        simpa using ih
    | fetch a b =>
      simp only [dispSuccIds, dispOf, List.filterMap_cons] at ih ⊢
      exact ih

theorem disp_mem_of_filterMap {tr : List PEntry} {e : RawEvent} {b : Bool}
    (h : tr.filterMap dispOf = [(e, b)]) : PEntry.disp e b ∈ tr := by
  have hx : (e, b) ∈ tr.filterMap dispOf := by rw [h]; exact List.mem_singleton.2 rfl
  rcases List.mem_filterMap.1 hx with ⟨a, ha, hd⟩
  cases a with
  | disp e' b' =>
    simp only [dispOf, Option.some_inj, Prod.mk.injEq] at hd
    rw [← hd.1, ← hd.2]
    exact ha
  | fetch x y => simp [dispOf] at hd

theorem processEvents_succ (env : Env) (n : Nat)
    (s : ConversationEventsProcessor) :
    processEvents env (Nat.succ n) s =
      if s.eventsMap.length < 1 then
        ({ s with eventsMap := [], processing := false }, [], true)
      else
        let r := processNextEvent env (Nat.succ n) s (jadd1 s.lastEventIdProcessed)
        match r.2.2.1 with
        | some processedEvent =>
          let r2 := processEvents env n
            { r.1 with lastEventIdProcessed := processedEvent.id }
          (r2.1, r.2.1 ++ r2.2.1, r.2.2.2 && r2.2.2)
        | none =>
          ({ r.1 with eventsMap := [], processing := false }, r.2.1, r.2.2.2) := by
  rfl


theorem dispSuccIds_append (a b : List PEntry) :
    dispSuccIds (a ++ b) = dispSuccIds a ++ dispSuccIds b := by
  simp [dispSuccIds, List.filterMap_append]

theorem processEvents_spec (env : Env) :
    ∀ (fuel : Nat) (s : ConversationEventsProcessor), WF s →
      PESpec s (processEvents env fuel s) := by
  intro fuel
  induction fuel with
  | zero =>
    intro s hwf
    refine ⟨hwf, rfl, rfl, List.Pairwise.nil, ?_, ?_, fun l hl => ⟨l, hl, le_refl l⟩,
      fun h => ⟨rfl, h⟩, ?_, ?_⟩
    · intro e b h; simp [processEvents] at h
    · intro m h; simp [dispSuccIds, processEvents] at h
    · intro e h; simp [processEvents] at h
    · intro h; simp [processEvents] at h
  | succ n ihn =>
    intro s hwf
    rw [processEvents_succ]
    by_cases hemp : s.eventsMap.length < 1
    · rw [if_pos hemp]
      obtain ⟨hm, hle, w0, hw0⟩ := hwf
      refine ⟨⟨by intro kv hkv; simp at hkv, hle, w0, hw0⟩, rfl, rfl,
        List.Pairwise.nil, ?_, ?_, fun l hl => ⟨l, hl, le_refl l⟩,
        fun h => ⟨rfl, h⟩, ?_, fun _ => ⟨rfl, rfl⟩⟩
      · intro e b h; simp at h
      · intro m h; simp [dispSuccIds] at h
      · intro e h; simp at h
    · rw [if_neg hemp]
      dsimp only
      obtain ⟨hp1, hp2, hp3, hp4, hp5, hp6, hp7, hp8, hp9⟩ :=
        processNextEvent_spec env (Nat.succ n) s (jadd1 s.lastEventIdProcessed) hwf
      rcases hres : (processNextEvent env (Nat.succ n) s
          (jadd1 s.lastEventIdProcessed)).2.2.1 with _ | pe
      · rw [hres] at hp8
        have hdisp : (processNextEvent env (Nat.succ n) s
            (jadd1 s.lastEventIdProcessed)).2.1.filterMap dispOf = [] ∨
            ∃ tr' e, (processNextEvent env (Nat.succ n) s
              (jadd1 s.lastEventIdProcessed)).2.1 =
                tr' ++ [PEntry.disp e false] ∧ tr'.filterMap dispOf = [] := by
          rcases hp8 with ⟨e, he, _⟩ | ⟨_, h⟩
          · simp at he
          · exact h
        obtain ⟨hq1m, hq1le, wq, hwq⟩ := hp1
        refine ⟨⟨by intro kv hkv; simp at hkv, hq1le, wq, hwq⟩,
          hp3, hp5, ?_, ?_, ?_, ?_, ?_, ?_, fun _ => ⟨rfl, rfl⟩⟩
        · rcases hdisp with hnil | ⟨tr', e, htr, htr'⟩
          · rw [dispSuccIds_eq, hnil]
            exact List.Pairwise.nil
          · rw [dispSuccIds_eq, htr, List.filterMap_append, htr', List.nil_append]
            simp [dispOf]
        · intro e b hmem
          obtain ⟨m, hm1, hm2, _⟩ := hp7 e b hmem
          refine ⟨m, hm1, ?_⟩
          intro l hl
          have := hm2 (l + 1) (by rw [hl]; rfl)
          linarith
        · intro m hmmem l' hl'
          exfalso
          rcases hdisp with hnil | ⟨tr', e, htr, htr'⟩
          · rw [dispSuccIds_eq, hnil] at hmmem
            simp at hmmem
          · rw [dispSuccIds_eq, htr, List.filterMap_append, htr',
              List.nil_append] at hmmem
            simp [dispOf] at hmmem
        · intro l hl
          exact ⟨l, by rw [hp2]; exact hl, le_refl l⟩
        · intro hnone
          have := hp9 (by rw [hnone]; rfl)
          exact ⟨by rw [this.1]; rfl, by rw [hp2]; exact hnone⟩
        · intro e hmem
          rcases hdisp with hnil | ⟨tr', e', htr, htr'⟩
          · exact absurd hmem (fun hc => no_disp_of_filterMap_nil hnil hc)
          · have hee : e = e' := by
              rw [htr] at hmem
              rcases List.mem_append.1 hmem with hmem | hmem
              · exact absurd hmem (fun hc => no_disp_of_filterMap_nil htr' hc)
              · simp only [List.mem_singleton] at hmem
                cases hmem; rfl
            subst hee
            refine ⟨⟨tr', htr⟩, rfl, ?_⟩
            intro m hm l' hl'
            obtain ⟨m0, hm0, hmb, _⟩ := hp7 e false hmem
            rw [hm0] at hm
            have hmm : m0 = m := Option.some_inj.1 hm
            subst hmm
            have hl's : s.lastEventIdProcessed = some l' := by
              rw [← hp2]; exact hl'
            have := hmb (l' + 1) (by rw [hl's]; rfl)
            linarith
      · rw [hres] at hp8
        rcases hp8 with ⟨e, he, htr⟩ | ⟨he, _⟩
        · have hpe : pe = e := Option.some_inj.1 he
          subst hpe
          have hmemstep : PEntry.disp pe true ∈
              (processNextEvent env (Nat.succ n) s
                (jadd1 s.lastEventIdProcessed)).2.1 := disp_mem_of_filterMap htr
          obtain ⟨m, hmid, hmb, hmw⟩ := hp7 pe true hmemstep
          obtain ⟨hp1m, hp1le, wp, hwp⟩ := hp1
          have hwfs2 : WF { (processNextEvent env (Nat.succ n) s
              (jadd1 s.lastEventIdProcessed)).1 with
                lastEventIdProcessed := pe.id } := by
            refine ⟨hp1m, ?_, wp, hwp⟩
            intro l hl
            have hl2 : pe.id = some l := hl
            rw [hmid] at hl2
            have hml : m = l := Option.some_inj.1 hl2
            subst hml
            exact ⟨wp, hwp, hmw wp hwp⟩
          obtain ⟨hq1, hq2, hq3, hq4, hq5, hq6, hq7, hq8, hq9, hq10⟩ :=
            ihn _ hwfs2
          have hs2last : ({ (processNextEvent env (Nat.succ n) s
              (jadd1 s.lastEventIdProcessed)).1 with
                lastEventIdProcessed := pe.id }).lastEventIdProcessed =
              some m := hmid
          have hstepids : dispSuccIds (processNextEvent env (Nat.succ n) s
              (jadd1 s.lastEventIdProcessed)).2.1 = [m] := by
            rw [dispSuccIds_eq, htr]
            simp [hmid]
          refine ⟨hq1, by rw [hq2, hp3], by rw [hq3, hp5], ?_, ?_, ?_, ?_, ?_, ?_, ?_⟩
          · rw [dispSuccIds_append, hstepids]
            refine List.Pairwise.cons ?_ hq4
            intro m' hm'
            rcases mem_dispSuccIds.1 hm' with ⟨e', he', hid'⟩
            obtain ⟨m0, hm0, hm0b⟩ := hq5 e' true he'
            rw [hid'] at hm0
            have hmm : m' = m0 := Option.some_inj.1 hm0
            subst hmm
            exact hm0b m hs2last
          · intro e b hmem
            rcases List.mem_append.1 hmem with hmem | hmem
            · obtain ⟨m0, hm0, hm0b, _⟩ := hp7 e b hmem
              refine ⟨m0, hm0, ?_⟩
              intro l hl
              have := hm0b (l + 1) (by rw [hl]; rfl)
              linarith
            · obtain ⟨m0, hm0, hm0b⟩ := hq5 e b hmem
              refine ⟨m0, hm0, ?_⟩
              intro l hl
              have h1 : l < m := by
                have := hmb (l + 1) (by rw [hl]; rfl)
                linarith
              exact lt_trans h1 (hm0b m hs2last)
          · intro m' hm' l' hl'
            rw [dispSuccIds_append, hstepids] at hm'
            rcases List.mem_cons.1 hm' with hm' | hm'
            · subst hm'
              obtain ⟨l0, hl0, hml0⟩ := hq7 m' hs2last
              rw [hl0] at hl'
              have hll : l0 = l' := Option.some_inj.1 hl'
              subst hll
              exact hml0
            · exact hq6 m' hm' l' hl'
          · intro l hl
            have h1 : l < m := by
              have := hmb (l + 1) (by rw [hl]; rfl)
              linarith
            obtain ⟨l', hl', hml'⟩ := hq7 m hs2last
            exact ⟨l', hl', le_of_lt (lt_of_lt_of_le h1 hml')⟩
          · intro hnone
            exfalso
            have hx := (hp9 (by rw [hnone]; rfl)).2
            rw [hres] at hx
            simp at hx
          · intro e hmem
            rcases List.mem_append.1 hmem with hmem | hmem
            · exfalso
              have hx : (e, false) ∈ (processNextEvent env (Nat.succ n) s
                  (jadd1 s.lastEventIdProcessed)).2.1.filterMap dispOf :=
                List.mem_filterMap.2 ⟨_, hmem, rfl⟩
              rw [htr] at hx
              simp at hx
            · obtain ⟨⟨tr'', htr''⟩, hproc, hbound⟩ := hq9 e hmem
              refine ⟨⟨(processNextEvent env (Nat.succ n) s
                  (jadd1 s.lastEventIdProcessed)).2.1 ++ tr'', ?_⟩, hproc, hbound⟩
              rw [List.append_assoc]
              exact congrArg (fun l => (processNextEvent env (Nat.succ n) s
                (jadd1 s.lastEventIdProcessed)).2.1 ++ l) htr''
          · intro hok
            rw [Bool.and_eq_true] at hok
            exact hq10 hok.2
        · exfalso
          simp at he

end ConversationEventsProcessor

open ConversationEventsProcessor

theorem WF_rewind_enqueue {s : ConversationEventsProcessor} {fe : RawEvent}
    (hs : WF s) :
    WF (ConversationEventsProcessor.enqueue
      { s with lastEventIdProcessed := jsub1 fe.id } fe.id fe) := by
  obtain ⟨hm, hle, w, hw⟩ := hs
  have hw1 : ({ s with lastEventIdProcessed := jsub1 fe.id }).largestEventIdInQueue = some w := hw
  obtain ⟨w', hw2, hww'⟩ := ConversationEventsProcessor.enqueue_mark_mono
    (s := { s with lastEventIdProcessed := jsub1 fe.id }) (k := fe.id)
    (e := fe) hw1
  refine ⟨?_, ?_, w', hw2⟩
  · intro kv hkv
    rw [ConversationEventsProcessor.enqueue_map] at hkv
    split at hkv
    · rename_i h2
      rcases jgtb_iff.1 h2 with ⟨a, b, hka, hlb, hba⟩
      rcases mapSet_mem hkv with rfl | hold
      · refine ⟨rfl, a, hka, ?_⟩
        intro w0 hw0
        rw [ConversationEventsProcessor.enqueue_mark] at hw0
        by_cases h1 : jgtb fe.id ({ s with lastEventIdProcessed := jsub1 fe.id }).largestEventIdInQueue
        · rw [if_pos h1] at hw0
          rw [hka] at hw0
          exact le_of_eq (Option.some_inj.1 hw0)
        · rw [if_neg h1] at hw0
          rw [hka, hw0, jgtb_some_some] at h1
          exact le_of_not_lt h1
      · obtain ⟨hid, q, hq, hqw⟩ := hm kv hold
        refine ⟨hid, q, hq, ?_⟩
        intro w0 hw0
        rw [hw2] at hw0
        have hvw : w' = w0 := Option.some_inj.1 hw0
        subst hvw
        exact le_trans (hqw w hw) hww'
    · obtain ⟨hid, q, hq, hqw⟩ := hm kv hkv
      refine ⟨hid, q, hq, ?_⟩
      intro w0 hw0
      rw [hw2] at hw0
      have hvw : w' = w0 := Option.some_inj.1 hw0
      subst hvw
      exact le_trans (hqw w hw) hww'
  · intro l hl
    rw [ConversationEventsProcessor.enqueue_last] at hl
    have hl2 : jsub1 fe.id = some l := hl
    have hex : ∃ t : ℚ, fe.id = some t ∧ t - 1 = l := by
      rcases hid : fe.id with _ | t
      · rw [hid] at hl2; simp [jsub1] at hl2
      · rw [hid] at hl2
        simp only [jsub1, Option.map_some] at hl2
        exact ⟨t, rfl, Option.some_inj.1 hl2⟩
    obtain ⟨t, hid, hlt⟩ := hex
    refine ⟨w', hw2, ?_⟩
    rw [ConversationEventsProcessor.enqueue_mark] at hw2
    by_cases h1 : jgtb fe.id ({ s with lastEventIdProcessed := jsub1 fe.id }).largestEventIdInQueue
    · rw [if_pos h1] at hw2
      rw [hid] at hw2
      have htw : t = w' := Option.some_inj.1 hw2
      subst htw
      linarith
    · rw [if_neg h1] at hw2
      rw [hw1] at hw2
      have hwe : w = w' := Option.some_inj.1 hw2
      subst hwe
      rw [hid, hw1, jgtb_some_some] at h1
      have htw := le_of_not_lt h1
      linarith

theorem bootstrapStep_WF {trigger : RawEvent}
    {acc : ConversationEventsProcessor × Bool} {fe : RawEvent}
    (h : WF acc.1) : WF (bootstrapStep trigger acc fe).1 := by
  unfold bootstrapStep
  dsimp only
  by_cases ht : fe.type = "rtc:transfer" ∧ fe.from_ = trigger.from_
  · rw [if_pos ht]
    split
    · exact WF_rewind_enqueue h
    · rename_i hfound
      exact absurd (by simp [ht]) hfound
  · rw [if_neg ht]
    split
    · exact ConversationEventsProcessor.WF_enqueue h rfl
    · exact h

theorem foldl_bootstrapStep_WF {trigger : RawEvent} :
    ∀ (l : List RawEvent) (acc : ConversationEventsProcessor × Bool),
      WF acc.1 → WF ((l.foldl (bootstrapStep trigger) acc).1) := by
  intro l
  induction l with
  | nil => intro acc h; exact h
  | cons hd tl ih =>
    intro acc h
    rw [List.foldl_cons]
    exact ih _ (bootstrapStep_WF h)

theorem createProcessor_WF {env : Env} {c : String} {eventId : ℚ}
    {ev : RawEvent} {p : ConversationEventsProcessor}
    (h : (createProcessor env c eventId ev).1 = some p) : WF p := by
  unfold createProcessor at h
  dsimp only at h
  split at h
  · split at h
    · simp at h
    · simp only [Option.some_inj] at h
      rw [← h]
      exact foldl_bootstrapStep_WF _ _
        (ConversationEventsProcessor.WF_mkProcessor c (eventId - 1))
  · simp only [Option.some_inj] at h
    rw [← h]
    exact ConversationEventsProcessor.WF_mkProcessor c (eventId - 1)

theorem convSuccIds_append (a b : List QEntry) (c : String) :
    convSuccIds (a ++ b) c = convSuccIds a c ++ convSuccIds b c := by
  simp [convSuccIds, List.filterMap_append]

theorem convSuccIds_map_conv (tr : List PEntry) (c : String) :
    convSuccIds (List.map (QEntry.conv c) tr) c = dispSuccIds tr := by
  induction tr with
  | nil => rfl
  | cons hd tl ih =>
    rw [List.map_cons]
    cases hd with
    | disp e b =>
      cases b with
      | true =>
        unfold convSuccIds dispSuccIds at ih ⊢
        rw [List.filterMap_cons, List.filterMap_cons]
        dsimp only
        rw [if_pos rfl]
        rcases e.id with _ | m
        · exact ih
        · rw [ih]
      | false =>
        simp only [convSuccIds, dispSuccIds, List.filterMap_cons] at ih ⊢
        exact ih
    | fetch a b =>
      simp only [convSuccIds, dispSuccIds, List.filterMap_cons] at ih ⊢
      exact ih

theorem convSuccIds_map_conv_ne (tr : List PEntry) {c c0 : String}
    (h : ¬ c0 = c) :
    convSuccIds (List.map (QEntry.conv c0) tr) c = [] := by
  induction tr with
  | nil => rfl
  | cons hd tl ih =>
    rw [List.map_cons]
    cases hd with
    | disp e b =>
      cases b with
      | true =>
        simp only [convSuccIds, List.filterMap_cons] at ih ⊢
        simp only [if_neg h]
        exact ih
      | false =>
        simp only [convSuccIds, List.filterMap_cons] at ih ⊢
        exact ih
    | fetch a b =>
      simp only [convSuccIds, List.filterMap_cons] at ih ⊢
      exact ih

theorem convSuccIds_bypass (e : RawEvent) (b : Bool) (c : String) :
    convSuccIds [QEntry.bypass e b] c = [] := rfl

theorem createProcessor_trace (env : Env) (c : String) (x : ℚ)
    (ev : RawEvent) :
    (createProcessor env c x ev).2 = [] ∨
    ∃ a b, (createProcessor env c x ev).2 = [PEntry.fetch a b] := by
  unfold createProcessor
  dsimp only
  split
  · rcases hres : ConversationEventsProcessor.fetchConversationEvents env
      (mkProcessor c (some (x - 1))) (some (bootstrapFetchStart x)) 20 with ⟨r1, r2⟩
    have h2 : r2 = (ConversationEventsProcessor.fetchConversationEvents env
        (mkProcessor c (some (x - 1))) (some (bootstrapFetchStart x)) 20).2 :=
      (congrArg Prod.snd hres).symm
    rcases r1 with _ | events
    · right
      exact ⟨_, _, by rw [h2]; rfl⟩
    · right
      exact ⟨_, _, by rw [h2]; rfl⟩
  · left
    rfl

theorem dispSuccIds_fetch (a b : JsNum) : dispSuccIds [PEntry.fetch a b] = [] := rfl

theorem enqueueInto_TraceInv {env : Env} {fuel : Nat} {q : EventsQueue}
    {tr : List QEntry} {c : String} {x : ℚ} {ev : RawEvent}
    {p : ConversationEventsProcessor}
    (hinv : TraceInv q tr) (hwfp : WF p) (hk : ev.id = some x)
    (hbound : ∀ m ∈ convSuccIds tr c, ∃ l,
      p.lastEventIdProcessed = some l ∧ m ≤ l) :
    TraceInv (enqueueInto env fuel q c x ev p).1
      (tr ++ (enqueueInto env fuel q c x ev p).2.1) := by
  obtain ⟨hqwf, hrest⟩ := hinv
  have hwfp1 : WF (p.enqueue (some x) ev) :=
    ConversationEventsProcessor.WF_enqueue hwfp hk.symm
  unfold enqueueInto
  dsimp only
  by_cases hproc : (p.enqueue (some x) ev).processing
  · rw [if_pos hproc]
    refine ⟨?_, ?_⟩
    · intro c' p' hp'
      by_cases hcc : c' = c
      · subst hcc
        rw [mapGet_set_self] at hp'
        rw [← Option.some_inj.1 hp']
        exact hwfp1
      · rw [mapGet_set_ne hcc] at hp'
        exact hqwf c' p' hp'
    · intro c'
      rw [List.append_nil]
      obtain ⟨hpair, hbnd⟩ := hrest c'
      refine ⟨hpair, ?_⟩
      intro m hm
      by_cases hcc : c' = c
      · subst hcc
        obtain ⟨l2, hl2, hml2⟩ := hbound m hm
        refine ⟨p.enqueue (some x) ev, mapGet_set_self, l2, ?_, hml2⟩
        rw [ConversationEventsProcessor.enqueue_last]
        exact hl2
      · obtain ⟨p', hp', l, hl, hml⟩ := hbnd m hm
        exact ⟨p', by rw [mapGet_set_ne hcc]; exact hp', l, hl, hml⟩
  · rw [if_neg hproc]
    dsimp only
    have hwfp2 : WF { p.enqueue (some x) ev with processing := true } := by
      obtain ⟨a, b, hc⟩ := hwfp1
      exact ⟨a, b, hc⟩
    obtain ⟨hs1, hs2, hs3, hs4, hs5, hs6, hs7, hs8, hs9, hs10⟩ :=
      ConversationEventsProcessor.processEvents_spec env fuel
        { p.enqueue (some x) ev with processing := true } hwfp2
    have hlastp : ({ p.enqueue (some x) ev with
        processing := true }).lastEventIdProcessed = p.lastEventIdProcessed :=
      ConversationEventsProcessor.enqueue_last p (some x) ev
    refine ⟨?_, ?_⟩
    · intro c' p' hp'
      by_cases hcc : c' = c
      · subst hcc
        rw [mapGet_set_self] at hp'
        rw [← Option.some_inj.1 hp']
        exact hs1
      · rw [mapGet_set_ne hcc] at hp'
        exact hqwf c' p' hp'
    · intro c'
      rw [convSuccIds_append]
      obtain ⟨hpair, hbnd⟩ := hrest c'
      by_cases hcc : c' = c
      · subst hcc
        rw [convSuccIds_map_conv]
        constructor
        · rw [List.pairwise_append]
          refine ⟨hpair, hs4, ?_⟩
          intro m1 hm1 m2 hm2
          obtain ⟨l2, hl2, hml2⟩ := hbound m1 hm1
          rcases mem_dispSuccIds.1 hm2 with ⟨e2, he2, hid2⟩
          obtain ⟨m2', hm2', hb2⟩ := hs5 e2 true he2
          rw [hid2] at hm2'
          have hmm : m2 = m2' := Option.some_inj.1 hm2'
          subst hmm
          have hlb : ({ p.enqueue (some x) ev with
              processing := true }).lastEventIdProcessed = some l2 := by
            rw [hlastp]; exact hl2
          exact lt_of_le_of_lt hml2 (hb2 l2 hlb)
        · intro m hm
          rcases List.mem_append.1 hm with hm | hm
          · obtain ⟨l2, hl2, hml2⟩ := hbound m hm
            have hlb : ({ p.enqueue (some x) ev with
                processing := true }).lastEventIdProcessed = some l2 := by
              rw [hlastp]; exact hl2
            obtain ⟨l', hl', hll'⟩ := hs7 l2 hlb
            exact ⟨_, mapGet_set_self, l', hl', le_trans hml2 hll'⟩
          · rcases mem_dispSuccIds.1 hm with ⟨e2, he2, hid2⟩
            obtain ⟨m2', hm2', hb2⟩ := hs5 e2 true he2
            rw [hid2] at hm2'
            have hmm : m = m2' := Option.some_inj.1 hm2'
            subst hmm
            rcases hlastc : ({ p.enqueue (some x) ev with
                processing := true }).lastEventIdProcessed with _ | l0
            · exfalso
              have hnil := (hs8 hlastc).1
              exact no_disp_of_filterMap_nil hnil he2
            · obtain ⟨l', hl', hll'⟩ := hs7 l0 hlastc
              refine ⟨_, mapGet_set_self, l', hl', ?_⟩
              exact hs6 m (mem_dispSuccIds.2 ⟨e2, he2, hid2⟩) l' hl'
      · rw [convSuccIds_map_conv_ne _ (fun h => hcc h.symm), List.append_nil]
        refine ⟨hpair, ?_⟩
        intro m hm
        obtain ⟨p', hp', l, hl, hml⟩ := hbnd m hm
        exact ⟨p', by rw [mapGet_set_ne hcc]; exact hp', l, hl, hml⟩

theorem enqueue_TraceInv {env : Env} {fuel : Nat} {q : EventsQueue}
    {tr : List QEntry} {ev : RawEvent} (hinv : TraceInv q tr) :
    TraceInv (EventsQueue.enqueue env fuel q ev).1
      (tr ++ (EventsQueue.enqueue env fuel q ev).2.1) := by
  obtain ⟨hqwf, hrest⟩ := hinv
  unfold EventsQueue.enqueue
  rcases hcid : ev.cid with _ | c
  · dsimp only
    refine ⟨hqwf, ?_⟩
    intro c'
    rw [convSuccIds_append, convSuccIds_bypass, List.append_nil]
    exact hrest c'
  · rcases hid : ev.id with _ | x
    · dsimp only
      refine ⟨hqwf, ?_⟩
      intro c'
      rw [convSuccIds_append, convSuccIds_bypass, List.append_nil]
      exact hrest c'
    · dsimp only
      rcases hget : mapGet q.cidMap c with _ | p
      · rcases hcp : createProcessor env c x ev with ⟨po, log⟩
        have hlog : ∀ c', convSuccIds (log.map (QEntry.conv c)) c' = [] := by
          intro c'
          have hshape := createProcessor_trace env c x ev
          rw [hcp] at hshape
          rcases hshape with h | ⟨a, b, h⟩
          · dsimp only at h
            rw [h]
            rfl
          · dsimp only at h
            rw [h]
            rfl
        rcases po with _ | p0
        · dsimp only
          refine ⟨hqwf, ?_⟩
          intro c'
          rw [convSuccIds_append, hlog, List.append_nil]
          exact hrest c'
        · dsimp only
          have hwfp0 : WF p0 := createProcessor_WF (by rw [hcp])
          have holdnil : convSuccIds tr c = [] := by
            rcases hnil : convSuccIds tr c with _ | ⟨m, rest⟩
            · rfl
            · exfalso
              obtain ⟨p', hp', _⟩ := (hrest c).2 m (by rw [hnil]; exact List.mem_cons_self _ _)
              rw [hget] at hp'
              simp at hp'
          have hinv1 : TraceInv ⟨mapSet q.cidMap c p0⟩
              (tr ++ log.map (QEntry.conv c)) := by
            refine ⟨?_, ?_⟩
            · intro c' p' hp'
              have hp2 : mapGet (mapSet q.cidMap c p0) c' = some p' := hp'
              by_cases hcc : c' = c
              · rw [hcc, mapGet_set_self] at hp2
                rw [← Option.some_inj.1 hp2]
                exact hwfp0
              · rw [mapGet_set_ne hcc] at hp2
                exact hqwf c' p' hp2
            · intro c'
              rw [convSuccIds_append, hlog, List.append_nil]
              by_cases hcc : c' = c
              · subst hcc
                rw [holdnil]
                exact ⟨List.Pairwise.nil, by intro m hm; simp at hm⟩
              · obtain ⟨hpair, hbnd⟩ := hrest c'
                refine ⟨hpair, ?_⟩
                intro m hm
                obtain ⟨p', hp', l, hl, hml⟩ := hbnd m hm
                refine ⟨p', ?_, l, hl, hml⟩
                show mapGet (mapSet q.cidMap c p0) c' = some p'
                rw [mapGet_set_ne hcc]
                exact hp'
          have hb1 : ∀ m ∈ convSuccIds (tr ++ log.map (QEntry.conv c)) c,
              ∃ l, p0.lastEventIdProcessed = some l ∧ m ≤ l := by
            intro m hm
            rw [convSuccIds_append, hlog, List.append_nil, holdnil] at hm
            simp at hm
          have hmain := @enqueueInto_TraceInv env fuel
            ⟨mapSet q.cidMap c p0⟩ (tr ++ log.map (QEntry.conv c)) c x ev p0
            hinv1 hwfp0 hid hb1
          rw [List.append_assoc] at hmain
          exact hmain
      · refine enqueueInto_TraceInv ⟨hqwf, hrest⟩ (hqwf c p hget) hid ?_
        intro m hm
        obtain ⟨p', hp', l, hl, hml⟩ := (hrest c).2 m hm
        rw [hget] at hp'
        have hpp : p = p' := Option.some_inj.1 hp'
        subst hpp
        exact ⟨l, hl, hml⟩

theorem runQueue_TraceInv (env : Env) (fuel : Nat) :
    ∀ (ops : List RawEvent) (q : EventsQueue) (tr : List QEntry),
      TraceInv q tr →
      TraceInv (runQueue env fuel ops q).1
        (tr ++ (runQueue env fuel ops q).2) := by
  intro ops
  induction ops with
  | nil =>
    intro q tr h
    unfold runQueue
    rw [List.append_nil]
    exact h
  | cons ev rest ih =>
    intro q tr h
    unfold runQueue
    dsimp only
    have h1 := @enqueue_TraceInv env fuel q tr ev h
    have h2 := ih (EventsQueue.enqueue env fuel q ev).1 _ h1
    rw [← List.append_assoc]
    exact h2

theorem TraceInv_init : TraceInv ⟨[]⟩ [] := by
  refine ⟨?_, ?_⟩
  · intro c p hp
    simp [mapGet] at hp
  · intro c
    exact ⟨List.Pairwise.nil, by intro m hm; simp [convSuccIds] at hm⟩


/-- C1: for every conversation, over an arbitrary run of the engine (any
incoming event stream, any fetch/dispatch oracle behaviour, any fuel), the
ids of the events successfully handed to the Dispatcher by the drain loop are
strictly increasing in trace order — so for dispatched events `e1, e2` with
`e1.id < e2.id`, `e1` is dispatched strictly before `e2` — and no id is
dispatched twice. -/
theorem C1_drain_dispatch_strictly_increasing (env : Env) (fuel : Nat)
    (ops : List RawEvent) (c : String) :
    List.Pairwise (· < ·) (convSuccIds (runQueue env fuel ops ⟨[]⟩).2 c) ∧
    (convSuccIds (runQueue env fuel ops ⟨[]⟩).2 c).Nodup := by
  have h := runQueue_TraceInv env fuel ops ⟨[]⟩ [] TraceInv_init
  rw [List.nil_append] at h
  obtain ⟨-, hrest⟩ := h
  obtain ⟨hpair, -⟩ := hrest c
  exact ⟨hpair, hpair.imp ne_of_lt⟩

/-- C2: skip-forward fallback, at the spec's own concrete scenario.  With
`lastProcessed = 10`, `highWaterMark = 13` (via an enqueued id 13) and id 11
missing, the drain fetches the window starting at 11; the fetch returns only
ids 12 and 13; nothing is ever dispatched for 11, ids 12 and 13 are
dispatched in order (using the fetched payloads), the pass terminates
(no deadlock) with `lastProcessed = 13`. -/
theorem C2_skip_forward :
    sC2.lastEventIdProcessed = some 10 ∧
    sC2.largestEventIdInQueue = some 13 ∧
    envC2.fetchResult (some 11) (some 22) = some [e12r, e13r] ∧
    (ConversationEventsProcessor.processEvents envC2 10 sC2).2.1 =
      [PEntry.fetch (some 11) (some 22),
       PEntry.disp { e12r with cid := some "c" } true,
       PEntry.disp { e13r with cid := some "c" } true] ∧
    dispSuccIds (ConversationEventsProcessor.processEvents envC2 10 sC2).2.1 =
      [12, 13] ∧
    (ConversationEventsProcessor.processEvents
      envC2 10 sC2).1.lastEventIdProcessed = some 13 ∧
    (ConversationEventsProcessor.processEvents envC2 10 sC2).2.2 = true := by
  exact ⟨by decide, by decide, by decide, by decide, by decide, by decide, by decide⟩

/-- C3 counterexample: at the claim's own scenario (`lastProcessed = 10`,
`highWaterMark = 15` via an enqueued id 15, fetch for the range starting at 11
returning `[11,12,13]`), the drain does NOT stop after 13: since
`highWaterMark = 15 > 14`, it issues a second fetch for 14 and, finding
nothing, skips forward and dispatches the enqueued 15 in the same pass, so
`lastProcessed` ends at 15, not 13. -/
theorem C3_counterexample :
    sC3.lastEventIdProcessed = some 10 ∧
    sC3.largestEventIdInQueue = some 15 ∧
    envC3.fetchResult (some 11) (some 24) = some histC3 ∧
    dispSuccIds (ConversationEventsProcessor.processEvents envC3 10 sC3).2.1 =
      [11, 12, 13, 15] ∧
    ¬ (ConversationEventsProcessor.processEvents
        envC3 10 sC3).1.lastEventIdProcessed = some 13 := by
  exact ⟨by decide, by decide, by decide, by decide, by decide⟩

/-- C3 amended: with `lastProcessed = 10` and `highWaterMark = 15` (via an
enqueued id 15) and id 11 absent, draining fetches the range starting at 11
(window `[11, 15+9]`); the fetch returns `[11,12,13]` and 11, 12, 13 are
dispatched in that order; then, because `highWaterMark = 15 > 14`, a further
fetch for the range starting at 14 is issued, it yields nothing for 14, and
the drain skips 14 and dispatches the enqueued 15, finishing the pass with
`lastProcessed = 15` and an empty pending map. -/
theorem C3_amended :
    (ConversationEventsProcessor.processEvents envC3 10 sC3).2.1 =
      [PEntry.fetch (some 11) (some 24),
       PEntry.disp (mkEv 11 (some "c") "text" "bob" 11) true,
       PEntry.disp (mkEv 12 (some "c") "text" "bob" 12) true,
       PEntry.disp (mkEv 13 (some "c") "text" "bob" 13) true,
       PEntry.fetch (some 14) (some 24),
       PEntry.disp eC3q true] ∧
    (ConversationEventsProcessor.processEvents
      envC3 10 sC3).1.lastEventIdProcessed = some 15 ∧
    (ConversationEventsProcessor.processEvents
      envC3 10 sC3).1.eventsMap = [] ∧
    (ConversationEventsProcessor.processEvents envC3 10 sC3).2.2 = true := by
  exact ⟨by decide, by decide, by decide, by decide⟩

/-- C10: every completed drain pass — whether pending was exhausted, a gap
blocked progress, or a dispatch failed — ends with the whole pending map
cleared and `processing = false`; of the processor state only
`lastEventIdProcessed`, `largestEventIdInQueue` (and the constant fields)
survive the pass. -/
theorem C10_idle_clears_pending (env : Env) (fuel : Nat)
    (s : ConversationEventsProcessor)
    (hok : (ConversationEventsProcessor.processEvents env fuel s).2.2 = true) :
    (ConversationEventsProcessor.processEvents env fuel s).1.eventsMap = [] ∧
    (ConversationEventsProcessor.processEvents env fuel s).1.processing
      = false := by
  induction fuel generalizing s with
  | zero => simp [ConversationEventsProcessor.processEvents] at hok
  | succ n ih =>
    rw [ConversationEventsProcessor.processEvents_succ] at hok ⊢
    by_cases hemp : s.eventsMap.length < 1
    · rw [if_pos hemp] at hok ⊢
      exact ⟨rfl, rfl⟩
    · rw [if_neg hemp] at hok ⊢
      dsimp only at hok ⊢
      rcases hres : (ConversationEventsProcessor.processNextEvent env
          (Nat.succ n) s (jadd1 s.lastEventIdProcessed)).2.2.1 with _ | pe
      · exact ⟨rfl, rfl⟩
      · rw [hres] at hok
        dsimp only at hok
        rw [Bool.and_eq_true] at hok
        exact ih _ hok.2

/-- C10 witness: a processor with empty pending completes its pass at once and
indeed finishes cleared and idle. -/
theorem C10_witness :
    (ConversationEventsProcessor.processEvents envTriv 1
        (mkProcessor "c" (some 0))).2.2 = true ∧
    (ConversationEventsProcessor.processEvents envTriv 1
        (mkProcessor "c" (some 0))).1.eventsMap = [] ∧
    (ConversationEventsProcessor.processEvents envTriv 1
        (mkProcessor "c" (some 0))).1.processing = false := by
  refine ⟨by decide, ?_, ?_⟩
  · exact (C10_idle_clears_pending envTriv 1 (mkProcessor "c" (some 0))
      (by decide)).1
  · exact (C10_idle_clears_pending envTriv 1 (mkProcessor "c" (some 0))
      (by decide)).2

/-- C7: if the dispatcher callback rejects for the event at some id, during
any drain pass from a well-formed state, then that failed attempt is the last
observable action of the pass (the drain stops advancing), the loop returns to
IDLE (`processing = false`), and `lastEventIdProcessed` stays strictly below
the failed event's id — the failure aborts only that single consumption
attempt and is not propagated (the pass returns a value rather than an
error on every path). -/
theorem C7_dispatch_failure (env : Env) (fuel : Nat)
    (s : ConversationEventsProcessor) (hwf : WF s) (e : RawEvent)
    (hmem : PEntry.disp e false ∈
      (ConversationEventsProcessor.processEvents env fuel s).2.1) :
    (∃ tr', (ConversationEventsProcessor.processEvents env fuel s).2.1 =
      tr' ++ [PEntry.disp e false]) ∧
    (ConversationEventsProcessor.processEvents env fuel s).1.processing
      = false ∧
    (∀ m, e.id = some m → ∀ l',
      (ConversationEventsProcessor.processEvents
        env fuel s).1.lastEventIdProcessed = some l' → l' < m) := by
  obtain ⟨-, -, -, -, -, -, -, -, h9, -⟩ :=
    ConversationEventsProcessor.processEvents_spec env fuel s hwf
  exact h9 e hmem

/-- C7 witness: a pending event at id 1 whose dispatch rejects; the pass
stops with that failed attempt as its last action, idle, with
`lastEventIdProcessed = 0 < 1`. -/
theorem C7_witness :
    PEntry.disp e1w false ∈
      (ConversationEventsProcessor.processEvents envNoDispatch 3 sC7).2.1 ∧
    ((∃ tr', (ConversationEventsProcessor.processEvents
        envNoDispatch 3 sC7).2.1 = tr' ++ [PEntry.disp e1w false]) ∧
      (ConversationEventsProcessor.processEvents
        envNoDispatch 3 sC7).1.processing = false ∧
      (∀ m, e1w.id = some m → ∀ l',
        (ConversationEventsProcessor.processEvents
          envNoDispatch 3 sC7).1.lastEventIdProcessed = some l' → l' < m)) := by
  have hwf : WF sC7 := by
    refine ⟨?_, ?_, ⟨1, rfl⟩⟩
    · intro kv hkv
      have hkv2 : kv = (some 1, e1w) := by simpa [sC7] using hkv
      subst hkv2
      refine ⟨rfl, 1, rfl, ?_⟩
      intro w hw
      have h1 : (1:ℚ) = w := Option.some_inj.1 hw
      linarith
    · intro l hl
      have h0 : (0:ℚ) = l := Option.some_inj.1 hl
      exact ⟨1, rfl, by linarith⟩
  exact ⟨by decide, C7_dispatch_failure envNoDispatch 3 sC7 hwf e1w (by decide)⟩

theorem PendingAbove_dequeue {s : ConversationEventsProcessor} {k : JsNum}
    (h : PendingAbove s) : PendingAbove (s.dequeue k).2 := by
  intro kv hkv l hl
  exact h kv (mapDelete_sub hkv) l hl

theorem processEvents_done (env : Env) (fuel : Nat)
    (s : ConversationEventsProcessor)
    (hok : (ConversationEventsProcessor.processEvents env fuel s).2.2 = true) :
    (ConversationEventsProcessor.processEvents env fuel s).1.eventsMap = [] := by
  induction fuel generalizing s with
  | zero => simp [ConversationEventsProcessor.processEvents] at hok
  | succ n ih =>
    rw [ConversationEventsProcessor.processEvents_succ] at hok ⊢
    by_cases hemp : s.eventsMap.length < 1
    · rw [if_pos hemp] at hok ⊢
    · rw [if_neg hemp] at hok ⊢
      dsimp only at hok ⊢
      rcases hres : (ConversationEventsProcessor.processNextEvent env
          (Nat.succ n) s (jadd1 s.lastEventIdProcessed)).2.2.1 with _ | pe
      · rfl
      · rw [hres] at hok
        dsimp only at hok
        rw [Bool.and_eq_true] at hok
        exact ih _ hok.2


/-- C4 counterexample: when the bootstrap lookback contains two
`rtc:transfer` events from the triggering originator (ids 5 and 8), the scan
rewinds `lastEventIdProcessed` to the *last* transfer (7 = 8 − 1) after having
already enqueued the events from the *first* transfer onward, leaving pending
keys 5 and 6 that are `≤ lastEventIdProcessed` — so the claimed invariant
"pending never contains a key ≤ lastProcessed after every operation,
including bootstrap rewind" is false. -/
theorem C4_counterexample :
    (createProcessor envC4 "c" 10 trigMJ).1 = some pC4 ∧
    (some 5, t5) ∈ pC4.eventsMap ∧
    pC4.lastEventIdProcessed = some 7 ∧
    ¬ PendingAbove pC4 := by
  refine ⟨by decide, by decide, by decide, ?_⟩
  intro h
  obtain ⟨q, hq, hlt⟩ := h (some 5, t5) (by decide) 7 (by decide)
  have h5 : (5:ℚ) = q := Option.some_inj.1 hq
  subst h5
  linarith

/-- C4 amended: the invariants hold after every operation except the
bootstrap rewind.  `WF` contains `lastProcessed ≤ highWaterMark` (whenever
`lastProcessed` is numeric) and `PendingAbove` is "no pending key ≤
lastProcessed".  (1) creation establishes both; (2),(3) `enqueue` (with the
key the source always passes, `Number(event.id)`) preserves both; (4),(5)
`dequeue` preserves both; (6) a drain pass preserves `WF`; (7) a completed
drain pass restores `PendingAbove` (pending is cleared); (8) bootstrap
creation still establishes `WF` — only the pending-key bound can fail there
(see the counterexample). -/
theorem C4_amended_invariants :
    (∀ c (l : ℚ), WF (mkProcessor c (some l)) ∧
      PendingAbove (mkProcessor c (some l))) ∧
    (∀ s (k : JsNum) (e : RawEvent), WF s → k = e.id →
      WF (ConversationEventsProcessor.enqueue s k e)) ∧
    (∀ s (k : JsNum) (e : RawEvent), PendingAbove s →
      PendingAbove (ConversationEventsProcessor.enqueue s k e)) ∧
    (∀ s (k : JsNum), WF s → WF (ConversationEventsProcessor.dequeue s k).2) ∧
    (∀ s (k : JsNum), PendingAbove s →
      PendingAbove (ConversationEventsProcessor.dequeue s k).2) ∧
    (∀ env fuel s, WF s →
      WF (ConversationEventsProcessor.processEvents env fuel s).1) ∧
    (∀ env fuel s,
      (ConversationEventsProcessor.processEvents env fuel s).2.2 = true →
      PendingAbove (ConversationEventsProcessor.processEvents env fuel s).1) ∧
    (∀ env c (x : ℚ) ev p, (createProcessor env c x ev).1 = some p →
      WF p) := by
  refine ⟨?_, ?_, ?_, ?_, ?_, ?_, ?_, ?_⟩
  · intro c l
    refine ⟨ConversationEventsProcessor.WF_mkProcessor c l, ?_⟩
    intro kv hkv
    simp [mkProcessor] at hkv
  · intro s k e hwf hk
    exact ConversationEventsProcessor.WF_enqueue hwf hk
  · intro s k e h
    exact ConversationEventsProcessor.PendingAbove_enqueue h
  · intro s k hwf
    exact ConversationEventsProcessor.WF_dequeue hwf
  · intro s k h
    exact PendingAbove_dequeue h
  · intro env fuel s hwf
    exact (ConversationEventsProcessor.processEvents_spec env fuel s hwf).1
  · intro env fuel s hok
    intro kv hkv l hl
    rw [processEvents_done env fuel s hok] at hkv
    simp at hkv
  · intro env c x ev p hp
    exact createProcessor_WF hp

/-- C4 amended witness: concrete instances of the amended invariants. -/
theorem C4_amended_witness :
    WF (ConversationEventsProcessor.enqueue (mkProcessor "c" (some 3))
      (some 4) (mkEv 4 (some "c") "text" "bob" 4)) ∧
    PendingAbove (ConversationEventsProcessor.enqueue (mkProcessor "c" (some 3))
      (some 4) (mkEv 4 (some "c") "text" "bob" 4)) ∧
    WF (ConversationEventsProcessor.processEvents envTriv 2
      (mkProcessor "c" (some 3))).1 := by
  refine ⟨?_, ?_, ?_⟩
  · exact C4_amended_invariants.2.1 (mkProcessor "c" (some 3)) (some 4)
      (mkEv 4 (some "c") "text" "bob" 4)
      (ConversationEventsProcessor.WF_mkProcessor "c" 3) rfl
  · exact C4_amended_invariants.2.2.1 (mkProcessor "c" (some 3)) (some 4)
      (mkEv 4 (some "c") "text" "bob" 4) (by intro kv hkv; simp [mkProcessor] at hkv)
  · exact C4_amended_invariants.2.2.2.2.2.1 envTriv 2 (mkProcessor "c" (some 3))
      (ConversationEventsProcessor.WF_mkProcessor "c" 3)

/-- C5 counterexample: the bootstrap lookback fetch is NOT protected by a
`try`/`catch` in `EventsQueue.enqueue`; with a failing HistoryFetcher, routing
a first `member:joined` event (with a channel id) for a new conversation makes
`enqueue` itself reject (the error is propagated to the caller), while no
state is recorded — contradicting "never propagated to the caller of the
routing/enqueue entry point … including the bootstrap lookback fetch". -/
theorem C5_counterexample :
    (EventsQueue.enqueue envFail 5 ⟨[]⟩ trigMJ).2.2 = true ∧
    (EventsQueue.enqueue envFail 5 ⟨[]⟩ trigMJ).1 = ⟨[]⟩ := by
  exact ⟨by decide, by decide⟩

/-- C5 amended: (1) inside the drain (`processNextEvent` and everything it
reaches), a HistoryFetcher that always rejects is observationally identical to
one that always returns no events — fetch failures degrade to the
skip-forward/not-found path; (2) for every event routed to an
already-tracked conversation, `enqueue` never rejects.  Only the bootstrap
lookback fetch on first creation can propagate a fetch failure (see the
counterexample). -/
theorem C5_amended_fetch_failure :
    (∀ (envA envB : Env) (fuel : Nat) (s : ConversationEventsProcessor)
      (v : JsNum), envA.dispatchOk = envB.dispatchOk →
      (∀ a b, envA.fetchResult a b = none) →
      (∀ a b, envB.fetchResult a b = some []) →
      ConversationEventsProcessor.processNextEvent envA fuel s v =
        ConversationEventsProcessor.processNextEvent envB fuel s v) ∧
    (∀ env fuel (q : EventsQueue) ev c (x : ℚ) p, ev.cid = some c →
      ev.id = some x → mapGet q.cidMap c = some p →
      (EventsQueue.enqueue env fuel q ev).2.2 = false) := by
  constructor
  · intro envA envB fuel
    induction fuel with
    | zero => intro s v _ _ _; rfl
    | succ n ih =>
      intro s v hdisp hfA hfB
      rw [ConversationEventsProcessor.processNextEvent_succ,
        ConversationEventsProcessor.processNextEvent_succ]
      have hfeq : ∀ s' : ConversationEventsProcessor,
          ConversationEventsProcessor.fetchEventsAndProcess envA s' v =
          ConversationEventsProcessor.fetchEventsAndProcess envB s' v := by
        intro s'
        unfold ConversationEventsProcessor.fetchEventsAndProcess
          ConversationEventsProcessor.fetchConversationEvents
        dsimp only
        rw [hfA, hfB]
        rfl
      rcases hget : mapGet s.eventsMap v with _ | ev
      · by_cases hgt : jgtb s.largestEventIdInQueue v
        · rw [if_pos hgt, if_pos hgt]
          dsimp only
          rw [hfeq, hdisp]
          simp only [ih _ _ hdisp hfA hfB]
        · rw [if_neg hgt, if_neg hgt]
      · rw [hdisp]
  · intro env fuel q ev c x p hcid hid hget
    unfold EventsQueue.enqueue
    rw [hcid, hid]
    dsimp only
    rw [hget]
    dsimp only
    unfold enqueueInto
    dsimp only
    by_cases hproc : (p.enqueue (some x) ev).processing
    · rw [if_pos hproc]
    · rw [if_neg hproc]

/-- C5 witness: a concrete drain step under an always-failing fetcher equals
the same step under a fetcher returning no events, and a concrete enqueue
into a tracked conversation reports no error. -/
theorem C5_witness :
    ConversationEventsProcessor.processNextEvent envFail 3 sC3 (some 11) =
      ConversationEventsProcessor.processNextEvent envTriv 3 sC3 (some 11) ∧
    (EventsQueue.enqueue envTriv 3 ⟨[("c", mkProcessor "c" (some 0))]⟩
      (mkEv 1 (some "c") "text" "bob" 1)).2.2 = false := by
  constructor
  · exact C5_amended_fetch_failure.1 envFail envTriv 3 sC3 (some 11) rfl
      (fun a b => rfl) (fun a b => rfl)
  · exact C5_amended_fetch_failure.2 envTriv 3 ⟨[("c", mkProcessor "c" (some 0))]⟩
      (mkEv 1 (some "c") "text" "bob" 1) "c" 1 (mkProcessor "c" (some 0))
      rfl rfl (by decide)


theorem bootstrapScan_pre {trigger : RawEvent} :
    ∀ (pre : List RawEvent) (s : ConversationEventsProcessor),
      (∀ e ∈ pre, ¬(e.type = "rtc:transfer" ∧ e.from_ = trigger.from_)) →
      List.foldl (bootstrapStep trigger) (s, false) pre = (s, false) := by
  intro pre
  induction pre with
  | nil => intro s h; rfl
  | cons hd tl ih =>
    intro s h
    rw [List.foldl_cons]
    have hn := h hd (List.mem_cons_self hd tl)
    have hstep : bootstrapStep trigger (s, false) hd = (s, false) := by
      simp [bootstrapStep, hn]
    rw [hstep]
    exact ih s (fun e he => h e (List.mem_cons_of_mem hd he))

theorem bootstrapScan_post {trigger : RawEvent} :
    ∀ (post : List RawEvent) (s : ConversationEventsProcessor),
      (∀ e ∈ post, ¬(e.type = "rtc:transfer" ∧ e.from_ = trigger.from_)) →
      List.foldl (bootstrapStep trigger) (s, true) post =
        (enqueueAll s post, true) := by
  intro post
  induction post with
  | nil => intro s h; rfl
  | cons hd tl ih =>
    intro s h
    rw [List.foldl_cons]
    have hn := h hd (List.mem_cons_self hd tl)
    have hstep : bootstrapStep trigger (s, true) hd =
        (s.enqueue hd.id hd, true) := by
      simp [bootstrapStep, hn]
    rw [hstep]
    exact ih _ (fun e he => h e (List.mem_cons_of_mem hd he))

theorem bootstrapStep_transfer {trigger t : RawEvent}
    {acc : ConversationEventsProcessor × Bool}
    (ht : t.type = "rtc:transfer" ∧ t.from_ = trigger.from_) :
    bootstrapStep trigger acc t =
      (ConversationEventsProcessor.enqueue
        { acc.1 with lastEventIdProcessed := jsub1 t.id } t.id t, true) := by
  simp [bootstrapStep, ht]

theorem enqueueAll_last :
    ∀ (l : List RawEvent) (s : ConversationEventsProcessor),
      (enqueueAll s l).lastEventIdProcessed = s.lastEventIdProcessed := by
  intro l
  induction l with
  | nil => intro s; rfl
  | cons hd tl ih =>
    intro s
    unfold enqueueAll at ih ⊢
    rw [List.foldl_cons, ih, ConversationEventsProcessor.enqueue_last]

theorem enqueueAll_processing :
    ∀ (l : List RawEvent) (s : ConversationEventsProcessor),
      (enqueueAll s l).processing = s.processing := by
  intro l
  induction l with
  | nil => intro s; rfl
  | cons hd tl ih =>
    intro s
    unfold enqueueAll at ih ⊢
    rw [List.foldl_cons, ih, ConversationEventsProcessor.enqueue_processing]

theorem enqueueAll_get_ne :
    ∀ (l : List RawEvent) (s : ConversationEventsProcessor) (k : JsNum),
      (∀ e ∈ l, e.id ≠ k) →
      mapGet (enqueueAll s l).eventsMap k = mapGet s.eventsMap k := by
  intro l
  induction l with
  | nil => intro s k _; rfl
  | cons hd tl ih =>
    intro s k h
    unfold enqueueAll at ih ⊢
    rw [List.foldl_cons, ih _ _ (fun e he => h e (List.mem_cons_of_mem hd he))]
    rw [ConversationEventsProcessor.enqueue_map]
    split
    · exact mapGet_set_ne (fun hc => h hd (List.mem_cons_self hd tl) (hc ▸ rfl))
    · rfl

theorem enqueueAll_cons (s : ConversationEventsProcessor) (hd : RawEvent)
    (tl : List RawEvent) :
    enqueueAll s (hd :: tl) = enqueueAll (s.enqueue hd.id hd) tl := rfl

theorem enqueueAll_get :
    ∀ (l : List RawEvent) (s : ConversationEventsProcessor) (lq : ℚ),
      s.lastEventIdProcessed = some lq →
      (∀ e ∈ l, ∃ q, e.id = some q ∧ lq < q) →
      List.Pairwise (fun a b : RawEvent => a.id ≠ b.id) l →
      ∀ e ∈ l, mapGet (enqueueAll s l).eventsMap e.id = some e := by
  intro l
  induction l with
  | nil => intro s lq _ _ _ e he; simp at he
  | cons hd tl ih =>
    intro s lq hlast hgt hpw e he
    rw [enqueueAll_cons]
    have hstored : mapGet (s.enqueue hd.id hd).eventsMap hd.id = some hd := by
      obtain ⟨q, hq, hlq⟩ := hgt hd (List.mem_cons_self hd tl)
      rw [ConversationEventsProcessor.enqueue_map,
        if_pos (by rw [hq, hlast]; exact jgtb_some_some.2 hlq)]
      exact mapGet_set_self
    rcases List.mem_cons.1 he with he | he
    · subst he
      rw [enqueueAll_get_ne tl _ e.id
        (fun e' he' hc => (List.pairwise_cons.1 hpw).1 e' he' hc.symm)]
      exact hstored
    · exact ih (s.enqueue hd.id hd) lq
        (by rw [ConversationEventsProcessor.enqueue_last]; exact hlast)
        (fun e' he' => hgt e' (List.mem_cons_of_mem hd he'))
        (List.pairwise_cons.1 hpw).2 e he

/-- C6: bootstrap transfer detection.  On first creation of a conversation's
state for a triggering media-presence event with audio (or member-joined
event with a channel id), when the lookback fetch returns a history
`pre ++ t :: post` whose only transfer event from the trigger's originator is
`t` (id `tid`, with the later events ascending above `tid` with distinct
ids), the created processor has `lastEventIdProcessed` rewound to `tid − 1`
and has `t` and every later fetched event pending under its own id.
Moreover, in the spec's concrete scenario (trigger id 10, transfer at id 5
among fetched ids 1–9), the full run dispatches 5,6,7,8,9,10 — starting at
the transfer's id, not the trigger's. -/
theorem C6_bootstrap_transfer_detection (env : Env) (c : String)
    (n tid : ℚ) (trigger t : RawEvent) (pre post : List RawEvent)
    (htrig : (trigger.type = "member:media" ∧ trigger.hasMediaAudio = true) ∨
      (trigger.type = "member:joined" ∧ trigger.hasChannelId = true))
    (hfetch : (ConversationEventsProcessor.fetchConversationEvents env
      (mkProcessor c (some (n - 1))) (some (bootstrapFetchStart n)) 20).1 =
      some (pre ++ t :: post))
    (ht : t.type = "rtc:transfer" ∧ t.from_ = trigger.from_)
    (htid : t.id = some tid)
    (hpre : ∀ e ∈ pre, ¬(e.type = "rtc:transfer" ∧ e.from_ = trigger.from_))
    (hpost : ∀ e ∈ post, ¬(e.type = "rtc:transfer" ∧ e.from_ = trigger.from_))
    (hpostgt : ∀ e ∈ post, ∃ q, e.id = some q ∧ tid < q)
    (hpw : List.Pairwise (fun a b : RawEvent => a.id ≠ b.id) post) :
    (∃ p, (createProcessor env c n trigger).1 = some p ∧
      p.lastEventIdProcessed = some (tid - 1) ∧
      mapGet p.eventsMap t.id = some t ∧
      (∀ e ∈ post, mapGet p.eventsMap e.id = some e)) ∧
    convSuccIds (EventsQueue.enqueue envC6 30 ⟨[]⟩ trigMJ).2.1 "conv1" =
      [5, 6, 7, 8, 9, 10] := by
  refine ⟨?_, by decide⟩
  have hscan : List.foldl (bootstrapStep trigger)
      (mkProcessor c (some (n - 1)), false) (pre ++ t :: post) =
      (enqueueAll (ConversationEventsProcessor.enqueue
        { mkProcessor c (some (n - 1)) with
          lastEventIdProcessed := jsub1 t.id } t.id t) post, true) := by
    rw [List.foldl_append, bootstrapScan_pre pre _ hpre, List.foldl_cons,
      bootstrapStep_transfer ht, bootstrapScan_post post _ hpost]
  have hlast1 : (ConversationEventsProcessor.enqueue
      { mkProcessor c (some (n - 1)) with
        lastEventIdProcessed := jsub1 t.id } t.id t).lastEventIdProcessed =
      some (tid - 1) := by
    rw [ConversationEventsProcessor.enqueue_last, htid]
    rfl
  have hcreate : (createProcessor env c n trigger).1 =
      some (enqueueAll (ConversationEventsProcessor.enqueue
        { mkProcessor c (some (n - 1)) with
          lastEventIdProcessed := jsub1 t.id } t.id t) post) := by
    unfold createProcessor
    dsimp only
    rw [if_pos htrig]
    rcases hres : ConversationEventsProcessor.fetchConversationEvents env
        (mkProcessor c (some (n - 1))) (some (bootstrapFetchStart n)) 20
      with ⟨r1, r2⟩
    have hr1 : r1 = some (pre ++ t :: post) :=
      (congrArg Prod.fst hres).symm.trans hfetch
    subst hr1
    dsimp only
    rw [hscan]
  refine ⟨_, hcreate, ?_, ?_, ?_⟩
  · rw [enqueueAll_last]
    exact hlast1
  · rw [enqueueAll_get_ne post _ t.id ?hne]
    case hne =>
      intro e he hc
      obtain ⟨q, hq, hlt⟩ := hpostgt e he
      rw [hq, htid] at hc
      have hqt : q = tid := Option.some_inj.1 hc
      subst hqt
      exact absurd hlt (lt_irrefl q)
    rw [ConversationEventsProcessor.enqueue_map, if_pos ?hgtb]
    case hgtb =>
      rw [htid]
      show jgtb (some tid) (jsub1 (some tid)) = true
      show jgtb (some tid) (some (tid - 1)) = true
      exact jgtb_some_some.2 (by linarith)
    exact mapGet_set_self
  · intro e he
    refine enqueueAll_get post _ (tid - 1) hlast1 ?_ hpw e he
    intro e' he'
    obtain ⟨q, hq, hlt⟩ := hpostgt e' he'
    exact ⟨q, hq, by linarith⟩

/-- C6 witness: the spec's concrete scenario (trigger `member:joined` id 10
with channel id, transfer at id 5 among fetched ids 1–9). -/
theorem C6_witness :
    (∃ p, (createProcessor envC6 "conv1" 10 trigMJ).1 = some p ∧
      p.lastEventIdProcessed = some (5 - 1) ∧
      mapGet p.eventsMap t5.id = some t5 ∧
      (∀ e ∈ postC6, mapGet p.eventsMap e.id = some e)) ∧
    convSuccIds (EventsQueue.enqueue envC6 30 ⟨[]⟩ trigMJ).2.1 "conv1" =
      [5, 6, 7, 8, 9, 10] := by
  refine C6_bootstrap_transfer_detection envC6 "conv1" 10 5 trigMJ t5 preC6
    postC6 (Or.inr ⟨rfl, rfl⟩) rfl ⟨rfl, rfl⟩ rfl (by decide) (by decide)
    ?_ (by decide)
  intro e he
  fin_cases he
  · exact ⟨6, rfl, by norm_num⟩
  · exact ⟨7, rfl, by norm_num⟩
  · exact ⟨8, rfl, by norm_num⟩
  · exact ⟨9, rfl, by norm_num⟩

/-- C8: `enqueue` raises the high-water mark to `max(highWaterMark, eventId)`,
stores the event iff `eventId > lastProcessed` (overwriting any prior entry
for that id — last write wins), and consequently enqueueing the same id twice
with different payloads before consumption yields exactly one dispatch,
carrying the most recently enqueued payload (shown at the concrete scenario
`lastProcessed = 20`, id 21 enqueued twice). -/
theorem C8_enqueue_last_write_wins (s : ConversationEventsProcessor)
    (ev e1 e2 : RawEvent) (i w l : ℚ)
    (hw : s.largestEventIdInQueue = some w)
    (hl : s.lastEventIdProcessed = some l) :
    ((s.enqueue (some i) ev).largestEventIdInQueue = some (max w i)) ∧
    (l < i →
      mapGet (s.enqueue (some i) ev).eventsMap (some i) = some ev) ∧
    (¬ l < i → (s.enqueue (some i) ev).eventsMap = s.eventsMap) ∧
    (l < i →
      mapGet ((s.enqueue (some i) e1).enqueue (some i) e2).eventsMap
        (some i) = some e2) ∧
    (ConversationEventsProcessor.processEvents envTriv 5 sC8).2.1 =
      [PEntry.disp e21b true] := by
  refine ⟨?_, ?_, ?_, ?_, by decide⟩
  · rw [ConversationEventsProcessor.enqueue_mark, hw]
    by_cases hwi : w < i
    · rw [if_pos (jgtb_some_some.2 hwi), max_eq_right (le_of_lt hwi)]
    · rw [if_neg (fun hc => hwi (jgtb_some_some.1 hc)),
        max_eq_left (le_of_not_lt hwi)]
  · intro hli
    rw [ConversationEventsProcessor.enqueue_map, hl,
      if_pos (jgtb_some_some.2 hli)]
    exact mapGet_set_self
  · intro hli
    rw [ConversationEventsProcessor.enqueue_map, hl,
      if_neg (fun hc => hli (jgtb_some_some.1 hc))]
  · intro hli
    have hl2 : (s.enqueue (some i) e1).lastEventIdProcessed = some l := by
      rw [ConversationEventsProcessor.enqueue_last]
      exact hl
    rw [ConversationEventsProcessor.enqueue_map, hl2,
      if_pos (jgtb_some_some.2 hli)]
    exact mapGet_set_self

/-- C8 witness: concrete instance of the enqueue equations at
`lastProcessed = 20`, `highWaterMark = 20`, id 21. -/
theorem C8_witness :
    ((mkProcessor "c" (some 20)).enqueue (some 21) e21a).largestEventIdInQueue
      = some (max 20 21) ∧
    mapGet (((mkProcessor "c" (some 20)).enqueue (some 21) e21a).enqueue
      (some 21) e21b).eventsMap (some 21) = some e21b := by
  constructor
  · exact (C8_enqueue_last_write_wins (mkProcessor "c" (some 20)) e21a e21a
      e21b 21 20 20 rfl rfl).1
  · exact (C8_enqueue_last_write_wins (mkProcessor "c" (some 20)) e21a e21a
      e21b 21 20 20 rfl rfl).2.2.2.1 (by norm_num)


/-- C9 counterexample: the event `{cid := "c9", id := 7/2}` has an id that is
not a valid integer, yet `Number("3.5")` is not `NaN`, so the code does NOT
bypass it: routing it creates per-conversation sequencing state for `"c9"`
and produces no direct bypass dispatch — contradicting the claim that every
event with a non-integer id is forwarded directly with no state created. -/
theorem C9_counterexample :
    (¬ ∃ k : ℤ, ((7 : ℚ)/2) = (k : ℚ)) ∧
    evHalf.cid = some "c9" ∧ evHalf.id = some (7/2) ∧
    ¬ mapGet (EventsQueue.enqueue envTriv 5 ⟨[]⟩ evHalf).1.cidMap "c9"
      = none ∧
    (EventsQueue.enqueue envTriv 5 ⟨[]⟩ evHalf).2.1 ≠
      [QEntry.bypass evHalf true] := by
  refine ⟨?_, rfl, rfl, by decide, by decide⟩
  rintro ⟨k, hk⟩
  have h2 : (7:ℚ) = (k:ℚ) * 2 := by
    field_simp at hk
    linarith
  have h3 : (7:ℤ) = k * 2 := by exact_mod_cast h2
  omega

/-- C9 amended: the bypass applies exactly to events whose `cid` is falsy or
whose id fails JS numeric parsing (`Number(id)` is `NaN`) — the source checks
`isNaN`, not integrality.  For those, `enqueue` forwards the event directly
to the Dispatcher callback exactly once, immediately, without creating or
modifying any per-conversation state, and reports an error only if that
direct callback rejects. -/
theorem C9_amended_bypass (env : Env) (fuel : Nat) (q : EventsQueue)
    (ev : RawEvent) (h : ev.cid = none ∨ ev.id = none) :
    EventsQueue.enqueue env fuel q ev =
      (q, [QEntry.bypass ev (env.dispatchOk ev)], !env.dispatchOk ev) := by
  unfold EventsQueue.enqueue
  rcases h with h | h
  · rw [h]
  · rcases hcid : ev.cid with _ | c
    · rfl
    · rw [h]

/-- C9 amended witness: a concrete event without a `cid` is forwarded once,
unordered, with no state change. -/
theorem C9_amended_witness :
    EventsQueue.enqueue envTriv 3 ⟨[]⟩ evNoCid =
      (⟨[]⟩, [QEntry.bypass evNoCid true], false) :=
  C9_amended_bypass envTriv 3 ⟨[]⟩ evNoCid (Or.inl rfl)
